import Mathlib

/-!
Verification development for the `hoist` multi-service deployment tool.

Strings from the Go source are modelled as lists of characters (`Str`),
so that Go's byte/rune-level operations (`strings.Split`, `strings.Join`,
`strings.TrimRight`, regexp character classes) become structurally
recursive Lean functions that the kernel can evaluate.
-/

abbrev Str := List Char

namespace Hoist

/-- Go `strings.Split(s, sep)` for a one-character separator.
Go returns `[""]` for the empty string and never returns an empty slice. -/
def splitOnChar (sep : Char) : Str → List Str
  | [] => [[]]
  | c :: rest =>
    match splitOnChar sep rest with
    | [] => [[]]
    | h :: t => if c = sep then [] :: h :: t else (c :: h) :: t

/-- Go `strings.Join(parts, sep)` for a one-character separator. -/
def joinChar (sep : Char) : List Str → Str
  | [] => []
  | [x] => x
  | x :: y :: rest => x ++ sep :: joinChar sep (y :: rest)

theorem splitOnChar_ne_nil (sep : Char) (s : Str) : splitOnChar sep s ≠ [] := by
  cases s with
  | nil => simp [splitOnChar]
  | cons c rest =>
    simp only [splitOnChar]
    cases h : splitOnChar sep rest with
    | nil => simp
    | cons a t =>
      by_cases hc : c = sep <;> simp [hc]

/-- Splitting a separator-free string yields a single segment. -/
theorem splitOnChar_of_not_mem {sep : Char} {s : Str} (h : sep ∉ s) :
    splitOnChar sep s = [s] := by
  induction s with
  | nil => rfl
  | cons c rest ih =>
    have hc : c ≠ sep := fun he => h (he ▸ List.mem_cons_self c rest)
    have hrest : sep ∉ rest := fun hm => h (List.mem_cons_of_mem c hm)
    simp only [splitOnChar, ih hrest]
    simp [hc]

/-- Splitting distributes over a separator occurrence. -/
theorem splitOnChar_append (sep : Char) (s t : Str) :
    splitOnChar sep (s ++ sep :: t) = splitOnChar sep s ++ splitOnChar sep t := by
  induction s with
  | nil =>
    simp only [List.nil_append, splitOnChar]
    cases h : splitOnChar sep t with
    | nil => exact absurd h (splitOnChar_ne_nil sep t)
    | cons a l => simp
  | cons c rest ih =>
    cases h : splitOnChar sep rest with
    | nil => exact absurd h (splitOnChar_ne_nil sep rest)
    | cons a l =>
      have h2 : splitOnChar sep (rest ++ sep :: t) = a :: (l ++ splitOnChar sep t) := by
        rw [ih, h]; rfl
      by_cases hc : c = sep
      · simp [splitOnChar, h2, h, hc]
      · simp [splitOnChar, h2, h, hc]

/-- Joining the segments with the separator restores the original string. -/
theorem joinChar_splitOnChar (sep : Char) (s : Str) :
    joinChar sep (splitOnChar sep s) = s := by
  induction s with
  | nil => rfl
  | cons c rest ih =>
    simp only [splitOnChar]
    cases h : splitOnChar sep rest with
    | nil => exact absurd h (splitOnChar_ne_nil sep rest)
    | cons a l =>
      rw [h] at ih
      by_cases hc : c = sep
      · subst hc
        simp only [if_pos rfl]
        cases l with
        | nil => simpa [joinChar] using ih
        | cons b m => simpa [joinChar] using ih
      · simp only [if_neg hc]
        cases l with
        | nil => simpa [joinChar] using ih
        | cons b m => simpa [joinChar] using ih

/-- No returned segment contains the separator. -/
theorem not_mem_of_mem_splitOnChar (sep : Char) (s : Str) :
    ∀ l ∈ splitOnChar sep s, sep ∉ l := by
  induction s with
  | nil => intro l hl; simp [splitOnChar] at hl; simp [hl]
  | cons c rest ih =>
    intro l hl
    cases h : splitOnChar sep rest with
    | nil => exact absurd h (splitOnChar_ne_nil sep rest)
    | cons a t =>
      simp only [splitOnChar, h] at hl
      by_cases hc : c = sep
      · rw [if_pos hc] at hl
        rcases List.mem_cons.mp hl with rfl | hl
        · simp
        · exact ih l (h ▸ hl)
      · rw [if_neg hc] at hl
        rcases List.mem_cons.mp hl with rfl | hl
        · intro hm
          rcases List.mem_cons.mp hm with rfl | hm
          · exact hc rfl
          · exact ih a (h ▸ List.mem_cons_self a t) hm
        · exact ih l (h ▸ List.mem_cons_of_mem a hl)

/-- Splitting a join of separator-free segments restores the segments. -/
theorem splitOnChar_joinChar (sep : Char) (L : List Str) (hne : L ≠ [])
    (hfree : ∀ l ∈ L, sep ∉ l) :
    splitOnChar sep (joinChar sep L) = L := by
  induction L with
  | nil => exact absurd rfl hne
  | cons x L ih =>
    cases L with
    | nil =>
      exact splitOnChar_of_not_mem (hfree x (List.mem_cons_self x []))
    | cons y M =>
      have hx : sep ∉ x := hfree x (List.mem_cons_self _ _)
      have hrest : ∀ l ∈ y :: M, sep ∉ l := fun l hl =>
        hfree l (List.mem_cons_of_mem x hl)
      have hjoin : joinChar sep (x :: y :: M) = x ++ sep :: joinChar sep (y :: M) := rfl
      rw [hjoin, splitOnChar_append, splitOnChar_of_not_mem hx, ih (by simp) hrest]
      rfl

end Hoist

namespace Hoist

/-! ## Crontab block editor (`cronjob_deployer.go`)

`replaceCrontabBlock` and `extractCrontabBlock` are pure text transforms
over the shared crontab document.  The line scan of `replaceCrontabBlock`
is factored into `repLines` (carrying the `inside` flag and returning the
rewritten lines together with the `replaced` flag), exactly mirroring the
Go loop. -/

def beginMarker (blockID : Str) : Str := "# hoist:begin ".data ++ blockID

def endMarker (blockID : Str) : Str := "# hoist:end ".data ++ blockID

/-- Go `strings.TrimRight(s, "\n")`. -/
def trimRightNl (s : Str) : Str :=
  (s.reverse.dropWhile (fun c => c = '\n')).reverse

/-- The loop of `replaceCrontabBlock`: walks the document lines with the
`inside` flag; on the begin marker it splices in the new block lines and
records `replaced`; while inside it drops lines up to the end marker. -/
def repLines (beg en : Str) (nb : List Str) : Bool → List Str → List Str × Bool
  | _, [] => ([], false)
  | inside, l :: ls =>
    if l = beg then
      (nb ++ (repLines beg en nb true ls).1, true)
    else if inside then
      if l = en then repLines beg en nb false ls
      else repLines beg en nb true ls
    else
      let p := repLines beg en nb false ls
      (l :: p.1, p.2)

/-- `replaceCrontabBlock` from `cronjob_deployer.go`: replaces the block for
`blockID`, or appends it (after trimming trailing newlines, with a single
separating newline) when no block was found. -/
def replaceCrontabBlock (crontab blockID newBlock : Str) : Str :=
  let beg := beginMarker blockID
  let en := endMarker blockID
  let p := repLines beg en (splitOnChar '\n' newBlock) false (splitOnChar '\n' crontab)
  if p.2 then joinChar '\n' p.1
  else
    let trimmed := trimRightNl (joinChar '\n' p.1)
    if trimmed = [] then newBlock ++ ['\n']
    else trimmed ++ '\n' :: (newBlock ++ ['\n'])

/-- The loop of `extractCrontabBlock`: collects the lines strictly between
the begin marker and the end marker (or to end of document), returning the
collected lines and the final `inside` flag. -/
def extractLoop (beg en : Str) : Bool → List Str → List Str × Bool
  | inside, [] => ([], inside)
  | inside, l :: ls =>
    if l = beg then extractLoop beg en true ls
    else if l = en then ([], inside)
    else if inside then
      let p := extractLoop beg en inside ls
      (l :: p.1, p.2)
    else extractLoop beg en inside ls

/-- `extractCrontabBlock` from `cronjob_deployer.go`. -/
def extractCrontabBlock (crontab blockID : Str) : Str :=
  let p := extractLoop (beginMarker blockID) (endMarker blockID) false
    (splitOnChar '\n' crontab)
  if p.2 then joinChar '\n' p.1 else []

/-- A well-formed block: its lines are the begin marker, marker-free
interior lines, and the end marker. -/
def wellFormedBlock (blockID b : Str) : Prop :=
  ∃ mid, splitOnChar '\n' b = beginMarker blockID :: mid ++ [endMarker blockID] ∧
    beginMarker blockID ∉ mid ∧ endMarker blockID ∉ mid

theorem beginMarker_ne_nil (blockID : Str) : beginMarker blockID ≠ [] := by
  simp [beginMarker]

theorem endMarker_ne_beginMarker (blockID : Str) :
    endMarker blockID ≠ beginMarker blockID := by
  intro h
  have hb : beginMarker blockID =
      '#' :: ' ' :: 'h' :: 'o' :: 'i' :: 's' :: 't' :: ':' ::
        'b' :: 'e' :: 'g' :: 'i' :: 'n' :: ' ' :: blockID := rfl
  have he : endMarker blockID =
      '#' :: ' ' :: 'h' :: 'o' :: 'i' :: 's' :: 't' :: ':' ::
        'e' :: 'n' :: 'd' :: ' ' :: blockID := rfl
  rw [hb, he] at h
  simp at h

/-- A document with no begin-marker line is passed through unchanged. -/
theorem repLines_no_beg {beg : Str} (en : Str) (nb : List Str) {ls : List Str}
    (h : beg ∉ ls) : repLines beg en nb false ls = (ls, false) := by
  induction ls with
  | nil => rfl
  | cons l ls ih =>
    have hl : l ≠ beg := fun he => h (he ▸ List.mem_cons_self l ls)
    have hrest : beg ∉ ls := fun hm => h (List.mem_cons_of_mem l hm)
    simp [repLines, hl, ih hrest]

/-- While inside, lines are dropped up to the end marker. -/
theorem repLines_inside_to_end {beg en : Str} (nb : List Str) {mid : List Str}
    (post : List Str) (hne : en ≠ beg) (hb : beg ∉ mid) (he : en ∉ mid) :
    repLines beg en nb true (mid ++ en :: post) = repLines beg en nb false post := by
  induction mid with
  | nil => simp [repLines, hne]
  | cons l mid ih =>
    have hlb : l ≠ beg := fun h => hb (h ▸ List.mem_cons_self l mid)
    have hle : l ≠ en := fun h => he (h ▸ List.mem_cons_self l mid)
    have hb2 : beg ∉ mid := fun hm => hb (List.mem_cons_of_mem l hm)
    have he2 : en ∉ mid := fun hm => he (List.mem_cons_of_mem l hm)
    simp [repLines, hlb, hle, ih hb2 he2]

/-- While inside with no markers ahead, everything is dropped. -/
theorem repLines_inside_no_end {beg en : Str} (nb : List Str) {mid : List Str}
    (hb : beg ∉ mid) (he : en ∉ mid) :
    repLines beg en nb true mid = ([], false) := by
  induction mid with
  | nil => rfl
  | cons l mid ih =>
    have hlb : l ≠ beg := fun h => hb (h ▸ List.mem_cons_self l mid)
    have hle : l ≠ en := fun h => he (h ▸ List.mem_cons_self l mid)
    have hb2 : beg ∉ mid := fun hm => hb (List.mem_cons_of_mem l hm)
    have he2 : en ∉ mid := fun hm => he (List.mem_cons_of_mem l hm)
    simp [repLines, hlb, hle, ih hb2 he2]

/-- Marker-free prefixes are preserved by the scan. -/
theorem repLines_front {beg : Str} (en : Str) (nb : List Str) {pre : List Str}
    (rest : List Str) (h : beg ∉ pre) :
    repLines beg en nb false (pre ++ rest) =
      (pre ++ (repLines beg en nb false rest).1, (repLines beg en nb false rest).2) := by
  induction pre with
  | nil => simp
  | cons l pre ih =>
    have hl : l ≠ beg := fun he2 => h (he2 ▸ List.mem_cons_self l pre)
    have hrest : beg ∉ pre := fun hm => h (List.mem_cons_of_mem l hm)
    simp [repLines, hl, ih hrest]

/-- Scanning a well-formed block splices it back and continues after it. -/
theorem repLines_block {beg en : Str} {nbl mid : List Str} (rest : List Str)
    (hnb : nbl = beg :: mid ++ [en]) (hne : en ≠ beg) (hb : beg ∉ mid)
    (he : en ∉ mid) :
    repLines beg en nbl false (nbl ++ rest) =
      (nbl ++ (repLines beg en nbl false rest).1, true) := by
  subst hnb
  have h1 : (beg :: mid ++ [en]) ++ rest = beg :: (mid ++ en :: rest) := by simp
  rw [h1]
  simp only [repLines, if_pos rfl]
  rw [repLines_inside_to_end _ rest hne hb he]
  simp

end Hoist

namespace Hoist

/-- Every output line of the scan comes from the new block or the document. -/
theorem repLines_mem {beg en : Str} {nb : List Str} (s : Bool) (ls : List Str) :
    ∀ x ∈ (repLines beg en nb s ls).1, x ∈ nb ∨ x ∈ ls := by
  induction ls generalizing s with
  | nil => intro x hx; simp [repLines] at hx
  | cons l ls ih =>
    intro x hx
    by_cases hl : l = beg
    · simp only [repLines, if_pos hl] at hx
      rcases List.mem_append.mp hx with h | h
      · exact Or.inl h
      · rcases ih true x h with h | h
        · exact Or.inl h
        · exact Or.inr (List.mem_cons_of_mem l h)
    · cases s with
      | true =>
        by_cases hl2 : l = en
        · simp only [repLines, if_neg hl, if_pos hl2] at hx
          rcases ih false x hx with h | h
          · exact Or.inl h
          · exact Or.inr (List.mem_cons_of_mem l h)
        · simp only [repLines, if_neg hl, if_neg hl2] at hx
          rcases ih true x hx with h | h
          · exact Or.inl h
          · exact Or.inr (List.mem_cons_of_mem l h)
      | false =>
        simp only [repLines, if_neg hl] at hx
        rcases List.mem_cons.mp hx with rfl | hx
        · exact Or.inr (List.mem_cons_self x ls)
        · rcases ih false x hx with h | h
          · exact Or.inl h
          · exact Or.inr (List.mem_cons_of_mem l h)

/-- If the scan replaced a block, its output is nonempty. -/
theorem repLines_ne_nil_of_replaced {beg en : Str} {nb : List Str} (hnb : nb ≠ [])
    (s : Bool) (ls : List Str) :
    (repLines beg en nb s ls).2 = true → (repLines beg en nb s ls).1 ≠ [] := by
  induction ls generalizing s with
  | nil => simp [repLines]
  | cons l ls ih =>
    by_cases hl : l = beg
    · simp [repLines, hl, hnb]
    · cases s with
      | true =>
        by_cases hl2 : l = en
        · simp only [repLines, if_neg hl, if_pos hl2]
          exact ih false
        · simp only [repLines, if_neg hl, if_neg hl2]
          exact ih true
      | false =>
        simp only [repLines, if_neg hl]
        intro _
        simp

/-- A scan that did not replace passed the document through and saw no
begin marker. -/
theorem repLines_not_replaced {beg en : Str} {nb : List Str} {ls : List Str}
    (h : (repLines beg en nb false ls).2 = false) :
    (repLines beg en nb false ls).1 = ls ∧ beg ∉ ls := by
  induction ls with
  | nil => exact ⟨rfl, by simp⟩
  | cons l ls ih =>
    by_cases hl : l = beg
    · rw [show repLines beg en nb false (l :: ls) =
        (nb ++ (repLines beg en nb true ls).1, true) by simp [repLines, hl]] at h
      simp at h
    · rw [show repLines beg en nb false (l :: ls) =
        (l :: (repLines beg en nb false ls).1, (repLines beg en nb false ls).2)
        by simp [repLines, hl]] at h ⊢
      obtain ⟨h1, h2⟩ := ih h
      refine ⟨by rw [h1], ?_⟩
      intro hm
      rcases List.mem_cons.mp hm with rfl | hm
      · exact hl rfl
      · exact h2 hm

/-- Rescanning the output of a scan changes nothing: the scan is
idempotent on line lists, for a well-formed replacement block. -/
theorem repLines_idem {beg en : Str} {nbl mid : List Str}
    (hnb : nbl = beg :: mid ++ [en]) (hne : en ≠ beg) (hb : beg ∉ mid)
    (he : en ∉ mid) (ls : List Str) :
    repLines beg en nbl false (repLines beg en nbl false ls).1 =
        repLines beg en nbl false ls ∧
      repLines beg en nbl false (repLines beg en nbl true ls).1 =
        repLines beg en nbl true ls := by
  induction ls with
  | nil => exact ⟨rfl, rfl⟩
  | cons l ls ih =>
    obtain ⟨ia, ib⟩ := ih
    have hbeg : ∀ h : l = beg,
        repLines beg en nbl false
            (repLines beg en nbl false (l :: ls)).1 =
          repLines beg en nbl false (l :: ls) := by
      intro hl
      rw [show repLines beg en nbl false (l :: ls) =
        (nbl ++ (repLines beg en nbl true ls).1, true) by simp [repLines, hl]]
      rw [repLines_block _ hnb hne hb he, ib]
    constructor
    · by_cases hl : l = beg
      · exact hbeg hl
      · rw [show repLines beg en nbl false (l :: ls) =
          (l :: (repLines beg en nbl false ls).1, (repLines beg en nbl false ls).2)
          by simp [repLines, hl]]
        rw [show repLines beg en nbl false (l :: (repLines beg en nbl false ls).1) =
          (l :: (repLines beg en nbl false (repLines beg en nbl false ls).1).1,
            (repLines beg en nbl false (repLines beg en nbl false ls).1).2)
          by simp [repLines, hl]]
        rw [ia]
    · by_cases hl : l = beg
      · rw [show repLines beg en nbl true (l :: ls) =
          (nbl ++ (repLines beg en nbl true ls).1, true) by simp [repLines, hl]]
        rw [repLines_block _ hnb hne hb he, ib]
      · by_cases hl2 : l = en
        · rw [show repLines beg en nbl true (l :: ls) =
            repLines beg en nbl false ls by simp [repLines, hl, hl2, hne]]
          exact ia
        · rw [show repLines beg en nbl true (l :: ls) =
            repLines beg en nbl true ls by simp [repLines, hl, hl2]]
          exact ib

/-- Joining concatenated nonempty line lists inserts one separator. -/
theorem joinChar_append (sep : Char) (A B : List Str) (ha : A ≠ []) (hb : B ≠ []) :
    joinChar sep (A ++ B) = joinChar sep A ++ sep :: joinChar sep B := by
  induction A with
  | nil => exact absurd rfl ha
  | cons x A ih =>
    cases A with
    | nil =>
      cases B with
      | nil => exact absurd rfl hb
      | cons b B => rfl
    | cons y A2 =>
      have h1 : joinChar sep ((x :: y :: A2) ++ B) =
          x ++ sep :: joinChar sep ((y :: A2) ++ B) := rfl
      have h2 : joinChar sep (x :: y :: A2) = x ++ sep :: joinChar sep (y :: A2) := rfl
      rw [h1, ih (by simp), h2]
      simp

/-- Trailing newlines decompose off the trimmed string. -/
theorem trimRightNl_spec (s : Str) :
    ∃ k, s = trimRightNl s ++ List.replicate k '\n' := by
  refine ⟨(s.reverse.takeWhile (fun c => c = '\n')).length, ?_⟩
  have h0 : s.reverse.takeWhile (fun c => c = '\n') =
      List.replicate (s.reverse.takeWhile (fun c => c = '\n')).length '\n' :=
    List.eq_replicate_of_mem (fun b hb => by simpa using List.mem_takeWhile_imp hb)
  have h1 : (s.reverse.takeWhile (fun c => c = '\n')).reverse =
      List.replicate (s.reverse.takeWhile (fun c => c = '\n')).length '\n' := by
    conv_lhs => rw [h0]
    exact List.reverse_replicate _ _
  calc s = s.reverse.reverse := by simp
    _ = (s.reverse.dropWhile (fun c => c = '\n')).reverse ++
        (s.reverse.takeWhile (fun c => c = '\n')).reverse := by
        rw [← List.reverse_append, List.takeWhile_append_dropWhile]
    _ = trimRightNl s ++ List.replicate (s.reverse.takeWhile (fun c => c = '\n')).length '\n' := by
        rw [trimRightNl, h1]

/-- Splitting a run of separators yields empty segments. -/
theorem splitOnChar_replicate (sep : Char) (k : Nat) :
    splitOnChar sep (List.replicate k sep) = List.replicate (k + 1) [] := by
  induction k with
  | zero => rfl
  | succ n ih =>
    have : List.replicate (n + 1) sep = [] ++ sep :: List.replicate n sep := by
      simp [List.replicate_succ]
    rw [this, splitOnChar_append, ih]
    rfl

/-- The lines of a string extend the lines of its newline-trimmed form by
empty segments only. -/
theorem splitOnChar_trimRightNl (s : Str) :
    ∃ k, splitOnChar '\n' s = splitOnChar '\n' (trimRightNl s) ++ List.replicate k [] := by
  obtain ⟨k, hk⟩ := trimRightNl_spec s
  cases k with
  | zero =>
    refine ⟨0, ?_⟩
    conv_lhs => rw [hk]
    simp
  | succ n =>
    refine ⟨n + 1, ?_⟩
    conv_lhs => rw [hk]
    rw [List.replicate_succ, splitOnChar_append, splitOnChar_replicate]

end Hoist

namespace Hoist

theorem replaceCrontabBlock_eq_of_replaced {crontab blockID newBlock : Str}
    (h : (repLines (beginMarker blockID) (endMarker blockID)
      (splitOnChar '\n' newBlock) false (splitOnChar '\n' crontab)).2 = true) :
    replaceCrontabBlock crontab blockID newBlock =
      joinChar '\n' (repLines (beginMarker blockID) (endMarker blockID)
        (splitOnChar '\n' newBlock) false (splitOnChar '\n' crontab)).1 := by
  simp [replaceCrontabBlock, h]

theorem replaceCrontabBlock_eq_of_not_replaced {crontab blockID newBlock : Str}
    (h : (repLines (beginMarker blockID) (endMarker blockID)
      (splitOnChar '\n' newBlock) false (splitOnChar '\n' crontab)).2 = false) :
    replaceCrontabBlock crontab blockID newBlock =
      (if trimRightNl (joinChar '\n' (repLines (beginMarker blockID)
            (endMarker blockID) (splitOnChar '\n' newBlock) false
            (splitOnChar '\n' crontab)).1) = [] then newBlock ++ ['\n']
        else trimRightNl (joinChar '\n' (repLines (beginMarker blockID)
            (endMarker blockID) (splitOnChar '\n' newBlock) false
            (splitOnChar '\n' crontab)).1) ++ '\n' :: (newBlock ++ ['\n'])) := by
  simp [replaceCrontabBlock, h]

/-- Scanning the single empty line (the line list of the empty document)
changes nothing. -/
theorem repLines_nil_line (blockID : Str) (en : Str) (nb : List Str) :
    repLines (beginMarker blockID) en nb false [[]] = ([[]], false) := by
  apply repLines_no_beg
  intro h
  rcases List.mem_cons.mp h with h | h
  · exact beginMarker_ne_nil blockID h
  · simp at h

/-- Appending the block and its final newline to a marker-free document
produces a replaced scan whose output is the document lines, the block
lines, and one empty segment. -/
theorem repLines_append_case {blockID b : Str} {pre : List Str}
    (hwf : wellFormedBlock blockID b) (hpre : beginMarker blockID ∉ pre) :
    repLines (beginMarker blockID) (endMarker blockID) (splitOnChar '\n' b) false
        (pre ++ (splitOnChar '\n' b ++ [[]])) =
      (pre ++ (splitOnChar '\n' b ++ [[]]), true) := by
  obtain ⟨mid, hnb, hbm, hem⟩ := hwf
  rw [repLines_front _ _ _ hpre,
    repLines_block _ hnb (endMarker_ne_beginMarker blockID) hbm hem,
    repLines_nil_line]

/-- All lines produced by the scan are newline-free when both the document
and the block lines are. -/
theorem repLines_newline_free {blockID b doc : Str} :
    ∀ x ∈ (repLines (beginMarker blockID) (endMarker blockID)
      (splitOnChar '\n' b) false (splitOnChar '\n' doc)).1, '\n' ∉ x := by
  intro x hx
  rcases repLines_mem false (splitOnChar '\n' doc) x hx with h | h
  · exact not_mem_of_mem_splitOnChar '\n' b x h
  · exact not_mem_of_mem_splitOnChar '\n' doc x h

/-- Claim C2: crontab block replacement is idempotent for every document
and well-formed block, and when the document contains a (single,
terminated) block for the identifier, replacement rewrites exactly the
lines of that block, leaving every line before and after it — including
other services' blocks — byte-identical. -/
theorem replaceCrontabBlock_idem_frame (doc blockID b : Str)
    (hwf : wellFormedBlock blockID b) :
    replaceCrontabBlock (replaceCrontabBlock doc blockID b) blockID b =
        replaceCrontabBlock doc blockID b ∧
      (∀ pre mid post : List Str,
        splitOnChar '\n' doc =
            pre ++ beginMarker blockID :: (mid ++ endMarker blockID :: post) →
        beginMarker blockID ∉ pre → beginMarker blockID ∉ mid →
        endMarker blockID ∉ mid → beginMarker blockID ∉ post →
        splitOnChar '\n' (replaceCrontabBlock doc blockID b) =
          pre ++ splitOnChar '\n' b ++ post) := by
  obtain ⟨mid0, hnb, hbm0, hem0⟩ := hwf
  have hne := endMarker_ne_beginMarker blockID
  have hnbl_ne : splitOnChar '\n' b ≠ [] := splitOnChar_ne_nil '\n' b
  constructor
  · -- idempotence
    by_cases hp : (repLines (beginMarker blockID) (endMarker blockID)
        (splitOnChar '\n' b) false (splitOnChar '\n' doc)).2 = true
    · -- a block was replaced: the output rescans to itself
      rw [replaceCrontabBlock_eq_of_replaced hp]
      have hout_ne : (repLines (beginMarker blockID) (endMarker blockID)
          (splitOnChar '\n' b) false (splitOnChar '\n' doc)).1 ≠ [] :=
        repLines_ne_nil_of_replaced hnbl_ne false _ hp
      have hsplit_join : splitOnChar '\n' (joinChar '\n'
          (repLines (beginMarker blockID) (endMarker blockID)
            (splitOnChar '\n' b) false (splitOnChar '\n' doc)).1) =
          (repLines (beginMarker blockID) (endMarker blockID)
            (splitOnChar '\n' b) false (splitOnChar '\n' doc)).1 :=
        splitOnChar_joinChar '\n' _ hout_ne repLines_newline_free
      have hidem := (repLines_idem hnb hne hbm0 hem0 (splitOnChar '\n' doc)).1
      rw [replaceCrontabBlock_eq_of_replaced (by rw [hsplit_join, hidem]; exact hp),
        hsplit_join, hidem]
    · -- no block: the appended block rescans to itself
      rw [Bool.not_eq_true] at hp
      obtain ⟨hid, hno⟩ := repLines_not_replaced hp
      rw [replaceCrontabBlock_eq_of_not_replaced hp, hid, joinChar_splitOnChar]
      by_cases ht : trimRightNl doc = []
      · rw [if_pos ht]
        -- document trims to nothing: result is the block plus final newline
        have hsp : splitOnChar '\n' (b ++ ['\n']) = splitOnChar '\n' b ++ [[]] := by
          have : b ++ ['\n'] = b ++ '\n' :: ([] : Str) := rfl
          rw [this, splitOnChar_append]
          rfl
        have hrep := @repLines_append_case blockID b []
          ⟨mid0, hnb, hbm0, hem0⟩ (by simp)
        simp only [List.nil_append] at hrep
        rw [replaceCrontabBlock_eq_of_replaced (by rw [hsp, hrep]),
          hsp, hrep]
        rw [joinChar_append '\n' _ [[]] hnbl_ne (by simp), joinChar_splitOnChar]
        rfl
      · rw [if_neg ht]
        -- document trims to something: one separating newline then the block
        have hdecomp : trimRightNl doc ++ '\n' :: (b ++ ['\n']) =
            trimRightNl doc ++ '\n' :: (b ++ '\n' :: ([] : Str)) := rfl
        have hsp : splitOnChar '\n' (trimRightNl doc ++ '\n' :: (b ++ ['\n'])) =
            splitOnChar '\n' (trimRightNl doc) ++ (splitOnChar '\n' b ++ [[]]) := by
          rw [hdecomp, splitOnChar_append]
          have : b ++ '\n' :: ([] : Str) = b ++ '\n' :: ([] : Str) := rfl
          rw [show splitOnChar '\n' (b ++ '\n' :: ([] : Str)) =
            splitOnChar '\n' b ++ splitOnChar '\n' ([] : Str)
            from splitOnChar_append '\n' b []]
          rfl
        have htr : beginMarker blockID ∉ splitOnChar '\n' (trimRightNl doc) := by
          obtain ⟨k, hk⟩ := splitOnChar_trimRightNl doc
          intro hmem
          exact hno (hk ▸ List.mem_append_left _ hmem)
        have hrep := repLines_append_case ⟨mid0, hnb, hbm0, hem0⟩ htr
        rw [replaceCrontabBlock_eq_of_replaced (by rw [hsp, hrep]), hsp, hrep]
        rw [joinChar_append '\n' _ (splitOnChar '\n' b ++ [[]])
          (splitOnChar_ne_nil '\n' _) (by simp), joinChar_splitOnChar,
          joinChar_append '\n' _ [[]] hnbl_ne (by simp), joinChar_splitOnChar]
        rfl
  · -- frame: only the identified block's lines change
    intro pre mid post hsplit h1 h2 h3 h4
    have hscan : repLines (beginMarker blockID) (endMarker blockID)
        (splitOnChar '\n' b) false (splitOnChar '\n' doc) =
        (pre ++ (splitOnChar '\n' b ++ post), true) := by
      rw [hsplit, repLines_front _ _ _ h1]
      have hb : repLines (beginMarker blockID) (endMarker blockID)
          (splitOnChar '\n' b) false
          (beginMarker blockID :: (mid ++ endMarker blockID :: post)) =
          (splitOnChar '\n' b ++ (repLines (beginMarker blockID)
            (endMarker blockID) (splitOnChar '\n' b) true
            (mid ++ endMarker blockID :: post)).1, true) := by
        simp [repLines]
      rw [hb, repLines_inside_to_end _ _ hne h2 h3, repLines_no_beg _ _ h4]
    have hout_ne : pre ++ (splitOnChar '\n' b ++ post) ≠ [] := by
      intro h
      rcases List.append_eq_nil.mp h with ⟨_, h2b⟩
      exact hnbl_ne (List.append_eq_nil.mp h2b).1
    rw [replaceCrontabBlock_eq_of_replaced (by rw [hscan]), hscan]
    have hfree : ∀ x ∈ pre ++ (splitOnChar '\n' b ++ post), '\n' ∉ x := by
      intro x hx
      have : x ∈ (repLines (beginMarker blockID) (endMarker blockID)
          (splitOnChar '\n' b) false (splitOnChar '\n' doc)).1 := by
        rw [hscan]; exact hx
      exact repLines_newline_free x this
    rw [splitOnChar_joinChar '\n' _ hout_ne hfree]
    simp

end Hoist

namespace Hoist

/-- Claim C9 (as written) is false: the append paths of
`replaceCrontabBlock` terminate the document with a trailing newline, and
a document consisting only of newlines is trimmed to nothing and treated
like the empty document (no separating line is kept before the block). -/
theorem replaceCrontabBlock_append_counterexample :
    replaceCrontabBlock [] ("x".data) ("B".data) ≠ "B".data ∧
      replaceCrontabBlock ("\n".data) ("x".data) ("B".data) ≠
        trimRightNl ("\n".data) ++ '\n' :: "B".data ∧
      replaceCrontabBlock [] ("x".data) ("B".data) = "B\n".data ∧
      replaceCrontabBlock ("\n".data) ("x".data) ("B".data) = "B\n".data := by
  refine ⟨by decide, by decide, by decide, by decide⟩

/-- Claim C9 (amended): appending carries a trailing newline terminator,
and the separating-line case additionally requires the document to remain
non-empty after trimming trailing newlines.  `replaceCrontabBlock "" id b`
is the block followed by the terminating newline (no leading separator);
for a document with no block for the identifier whose trailing-newline
trim is non-empty, the result is the trimmed document, one separating
newline, the block, and the terminating newline. -/
theorem replaceCrontabBlock_append_when_absent (blockID b doc : Str)
    (hdoc : beginMarker blockID ∉ splitOnChar '\n' doc)
    (ht : trimRightNl doc ≠ []) :
    replaceCrontabBlock [] blockID b = b ++ ['\n'] ∧
      replaceCrontabBlock doc blockID b =
        trimRightNl doc ++ '\n' :: (b ++ ['\n']) := by
  constructor
  · have h0 : repLines (beginMarker blockID) (endMarker blockID)
        (splitOnChar '\n' b) false (splitOnChar '\n' ([] : Str)) = ([[]], false) :=
      repLines_nil_line blockID _ _
    rw [replaceCrontabBlock_eq_of_not_replaced (by rw [h0]), h0]
    rfl
  · have h0 : repLines (beginMarker blockID) (endMarker blockID)
        (splitOnChar '\n' b) false (splitOnChar '\n' doc) =
        (splitOnChar '\n' doc, false) :=
      repLines_no_beg _ _ hdoc
    rw [replaceCrontabBlock_eq_of_not_replaced (by rw [h0]), h0]
    simp only [joinChar_splitOnChar]
    rw [if_neg ht]

/-- A marker-free prefix is skipped by the extraction scan. -/
theorem extractLoop_prefix {beg en : Str} {pre : List Str} (rest : List Str)
    (hb : beg ∉ pre) (he : en ∉ pre) :
    extractLoop beg en false (pre ++ rest) = extractLoop beg en false rest := by
  induction pre with
  | nil => rfl
  | cons l pre ih =>
    have hlb : l ≠ beg := fun h => hb (h ▸ List.mem_cons_self l pre)
    have hle : l ≠ en := fun h => he (h ▸ List.mem_cons_self l pre)
    have hb2 : beg ∉ pre := fun hm => hb (List.mem_cons_of_mem l hm)
    have he2 : en ∉ pre := fun hm => he (List.mem_cons_of_mem l hm)
    simp [extractLoop, hlb, hle, ih hb2 he2]

/-- With no markers ahead, the extraction scan collects every line. -/
theorem extractLoop_inside_all {beg en : Str} {rest : List Str}
    (hb : beg ∉ rest) (he : en ∉ rest) :
    extractLoop beg en true rest = (rest, true) := by
  induction rest with
  | nil => rfl
  | cons l rest ih =>
    have hlb : l ≠ beg := fun h => hb (h ▸ List.mem_cons_self l rest)
    have hle : l ≠ en := fun h => he (h ▸ List.mem_cons_self l rest)
    have hb2 : beg ∉ rest := fun hm => hb (List.mem_cons_of_mem l hm)
    have he2 : en ∉ rest := fun hm => he (List.mem_cons_of_mem l hm)
    simp [extractLoop, hlb, hle, ih hb2 he2]

/-- Claim C10: when the document contains the begin marker but no matching
end marker, `replaceCrontabBlock` keeps the lines preceding the begin
marker, splices in the new block, and discards every line after the begin
marker; `extractCrontabBlock` returns everything from the begin marker to
the end of the document as the block content. -/
theorem crontab_unterminated_block (doc blockID nb : Str) (pre rest : List Str)
    (hsplit : splitOnChar '\n' doc = pre ++ beginMarker blockID :: rest)
    (hb1 : beginMarker blockID ∉ pre) (hb2 : beginMarker blockID ∉ rest)
    (he1 : endMarker blockID ∉ pre) (he2 : endMarker blockID ∉ rest) :
    replaceCrontabBlock doc blockID nb =
        joinChar '\n' (pre ++ splitOnChar '\n' nb) ∧
      extractCrontabBlock doc blockID = joinChar '\n' rest := by
  constructor
  · have hscan : repLines (beginMarker blockID) (endMarker blockID)
        (splitOnChar '\n' nb) false (splitOnChar '\n' doc) =
        (pre ++ (splitOnChar '\n' nb ++ []), true) := by
      rw [hsplit, repLines_front _ _ _ hb1]
      have hb : repLines (beginMarker blockID) (endMarker blockID)
          (splitOnChar '\n' nb) false (beginMarker blockID :: rest) =
          (splitOnChar '\n' nb ++ (repLines (beginMarker blockID)
            (endMarker blockID) (splitOnChar '\n' nb) true rest).1, true) := by
        simp [repLines]
      rw [hb, repLines_inside_no_end _ hb2 he2]
    rw [replaceCrontabBlock_eq_of_replaced (by rw [hscan]), hscan]
    simp
  · have hloop : extractLoop (beginMarker blockID) (endMarker blockID) false
        (splitOnChar '\n' doc) = (rest, true) := by
      rw [hsplit, extractLoop_prefix _ hb1 he1]
      have hb : extractLoop (beginMarker blockID) (endMarker blockID) false
          (beginMarker blockID :: rest) =
          extractLoop (beginMarker blockID) (endMarker blockID) true rest := by
        simp [extractLoop]
      rw [hb, extractLoop_inside_all hb2 he2]
    simp [extractCrontabBlock, hloop]

end Hoist

namespace Hoist

/-- Concrete instance of claim C2: a crontab holding blocks for
`other-prod` and `report-prod`; replacing `report-prod` is idempotent and
leaves the `other-prod` block byte-identical. -/
theorem replaceCrontabBlock_idem_frame_witness :
    replaceCrontabBlock
        (replaceCrontabBlock
          ("# hoist:begin other-prod\n# hoist:tag=t1\n* * * * * run other\n# hoist:end other-prod\n# hoist:begin report-prod\n# hoist:tag=t0\n* * * * * run report\n# hoist:end report-prod".data)
          ("report-prod".data)
          ("# hoist:begin report-prod\n# hoist:tag=t2\n* * * * * run report2\n# hoist:end report-prod".data))
        ("report-prod".data)
        ("# hoist:begin report-prod\n# hoist:tag=t2\n* * * * * run report2\n# hoist:end report-prod".data) =
      replaceCrontabBlock
        ("# hoist:begin other-prod\n# hoist:tag=t1\n* * * * * run other\n# hoist:end other-prod\n# hoist:begin report-prod\n# hoist:tag=t0\n* * * * * run report\n# hoist:end report-prod".data)
        ("report-prod".data)
        ("# hoist:begin report-prod\n# hoist:tag=t2\n* * * * * run report2\n# hoist:end report-prod".data) ∧
    splitOnChar '\n'
        (replaceCrontabBlock
          ("# hoist:begin other-prod\n# hoist:tag=t1\n* * * * * run other\n# hoist:end other-prod\n# hoist:begin report-prod\n# hoist:tag=t0\n* * * * * run report\n# hoist:end report-prod".data)
          ("report-prod".data)
          ("# hoist:begin report-prod\n# hoist:tag=t2\n* * * * * run report2\n# hoist:end report-prod".data)) =
      ["# hoist:begin other-prod".data, "# hoist:tag=t1".data,
          "* * * * * run other".data, "# hoist:end other-prod".data] ++
        splitOnChar '\n'
          ("# hoist:begin report-prod\n# hoist:tag=t2\n* * * * * run report2\n# hoist:end report-prod".data) ++
        [] := by
  have hwf : wellFormedBlock ("report-prod".data)
      ("# hoist:begin report-prod\n# hoist:tag=t2\n* * * * * run report2\n# hoist:end report-prod".data) :=
    ⟨["# hoist:tag=t2".data, "* * * * * run report2".data], by decide, by decide,
      by decide⟩
  exact ⟨(replaceCrontabBlock_idem_frame _ _ _ hwf).1,
    (replaceCrontabBlock_idem_frame _ _ _ hwf).2
      ["# hoist:begin other-prod".data, "# hoist:tag=t1".data,
        "* * * * * run other".data, "# hoist:end other-prod".data]
      ["# hoist:tag=t0".data, "* * * * * run report".data]
      [] (by decide) (by decide) (by decide) (by decide) (by decide)⟩

/-- Concrete instance of claim C9 (amended): appending a block to the
empty crontab and to a crontab with unrelated content. -/
theorem replaceCrontabBlock_append_when_absent_witness :
    replaceCrontabBlock [] ("report-prod".data)
        ("# hoist:begin report-prod\nJOB\n# hoist:end report-prod".data) =
      ("# hoist:begin report-prod\nJOB\n# hoist:end report-prod".data) ++ ['\n'] ∧
    replaceCrontabBlock ("MAILTO=ops\n0 0 * * * backup\n\n".data)
        ("report-prod".data)
        ("# hoist:begin report-prod\nJOB\n# hoist:end report-prod".data) =
      trimRightNl ("MAILTO=ops\n0 0 * * * backup\n\n".data) ++
        '\n' :: (("# hoist:begin report-prod\nJOB\n# hoist:end report-prod".data) ++ ['\n']) :=
  replaceCrontabBlock_append_when_absent _ _ _ (by decide) (by decide)

/-- Concrete instance of claim C10: a crontab whose `report-prod` block
has a begin marker but no end marker. -/
theorem crontab_unterminated_block_witness :
    replaceCrontabBlock
        ("0 0 * * * backup\n# hoist:begin report-prod\n# hoist:tag=t0\nstray entry".data)
        ("report-prod".data) ("NEWBLOCK".data) =
      joinChar '\n' (["0 0 * * * backup".data] ++ splitOnChar '\n' ("NEWBLOCK".data)) ∧
    extractCrontabBlock
        ("0 0 * * * backup\n# hoist:begin report-prod\n# hoist:tag=t0\nstray entry".data)
        ("report-prod".data) =
      joinChar '\n' ["# hoist:tag=t0".data, "stray entry".data] :=
  crontab_unterminated_block _ _ _ ["0 0 * * * backup".data]
    ["# hoist:tag=t0".data, "stray entry".data]
    (by decide) (by decide) (by decide) (by decide) (by decide)

end Hoist

namespace Hoist

/-! ## Tag codec (`tag.go`)

`generateTag` encodes `(branch, sha, timestamp, attempt)` into the build
tag string; `parseTag` decodes it.  Timestamps are wall-clock UTC fields
(`DateTime`); Go's `time.Format("20060102150405")` / `time.Parse` pair
becomes `formatTimestamp` / `parseTimestamp` with Go's field-range
validation.  Integers are `Nat`: the attempt reaching `strconv.Atoi` is
the decimal rendering of a Go `int`, so overflow cannot occur there. -/

/-- Character class of the sanitizer regexp `[^a-zA-Z0-9.\-]` (negated). -/
def isTagChar (c : Char) : Bool :=
  (decide ('a' ≤ c) && decide (c ≤ 'z')) ||
    (decide ('A' ≤ c) && decide (c ≤ 'Z')) ||
    (decide ('0' ≤ c) && decide (c ≤ '9')) ||
    decide (c = '.') || decide (c = '-')

/-- `sanitizeBranch` from `tag.go`: replace characters outside the class
with a hyphen, then truncate to 40 characters. -/
def sanitizeBranch (s : Str) : Str :=
  let t := s.map (fun c => if isTagChar c then c else '-')
  if 40 < t.length then t.take 40 else t

/-- Fuel-based digit renderer (most significant first); the fuel only
bounds the digit count, so it is kernel-evaluable on large numbers. -/
def goItoaAux : Nat → Nat → Str
  | 0, _ => []
  | fuel + 1, n =>
    if n = 0 then [] else goItoaAux fuel (n / 10) ++ [Char.ofNat (48 + n % 10)]

/-- Decimal rendering of a natural number, as Go `fmt.Sprintf("%d", n)`
for non-negative `n`. -/
def goItoa (n : Nat) : Str :=
  if n = 0 then ['0'] else goItoaAux n n

theorem goItoaAux_eq_digits :
    ∀ fuel n, n ≤ fuel →
      goItoaAux fuel n = (Nat.digits 10 n).reverse.map (fun d => Char.ofNat (48 + d)) := by
  intro fuel
  induction fuel with
  | zero =>
    intro n hn
    interval_cases n
    simp [goItoaAux]
  | succ f ih =>
    intro n hn
    by_cases h0 : n = 0
    · subst h0; simp [goItoaAux]
    · have hpos : 0 < n := Nat.pos_of_ne_zero h0
      have hdiv : n / 10 ≤ f := by
        have h1 : n / 10 < n := Nat.div_lt_self hpos (by norm_num)
        omega
      have hstep : goItoaAux (f + 1) n =
          goItoaAux f (n / 10) ++ [Char.ofNat (48 + n % 10)] := by
        simp [goItoaAux, h0]
      rw [hstep, ih _ hdiv, Nat.digits_def' (by norm_num : (1 : Nat) < 10) hpos]
      simp

/-- Numeric value of an all-digits string (Go `strconv.Atoi` on a string
already matched by `^\d+$`). -/
def parseNatDigits (s : Str) : Nat :=
  s.foldl (fun a c => a * 10 + (c.toNat - 48)) 0

/-- Left-pad a decimal rendering with zeros to width `w`, as Go's
fixed-width numeric layout fields do. -/
def padNum (w n : Nat) : Str :=
  List.replicate (w - (goItoa n).length) '0' ++ goItoa n

/-- UTC wall-clock fields at second precision. -/
structure DateTime where
  year : Nat
  month : Nat
  day : Nat
  hour : Nat
  minute : Nat
  second : Nat
deriving DecidableEq, Repr

def isLeapYear (y : Nat) : Bool :=
  (decide (y % 4 = 0) && decide (y % 100 ≠ 0)) || decide (y % 400 = 0)

def daysInMonth (y m : Nat) : Nat :=
  if m = 2 then (if isLeapYear y then 29 else 28)
  else if m = 4 ∨ m = 6 ∨ m = 9 ∨ m = 11 then 30
  else 31

/-- Field ranges accepted by Go `time.Date`/`time.Parse`, restricted to
four-digit years so that the `20060102150405` layout is faithful. -/
def validDateTime (t : DateTime) : Prop :=
  t.year ≤ 9999 ∧ 1 ≤ t.month ∧ t.month ≤ 12 ∧ 1 ≤ t.day ∧
    t.day ≤ daysInMonth t.year t.month ∧ t.hour ≤ 23 ∧ t.minute ≤ 59 ∧
    t.second ≤ 59

instance : DecidablePred validDateTime := fun t => by
  unfold validDateTime
  infer_instance

/-- Go `ts.UTC().Format("20060102150405")`. -/
def formatTimestamp (t : DateTime) : Str :=
  padNum 4 t.year ++ padNum 2 t.month ++ padNum 2 t.day ++
    padNum 2 t.hour ++ padNum 2 t.minute ++ padNum 2 t.second

/-- Go `time.Parse("20060102150405", s)` on a 14-digit string: fixed-width
numeric fields with Go's range validation (month 1..12, day bounded by the
month length, hour/minute/second bounded). -/
def parseTimestamp (s : Str) : Option DateTime :=
  let y := parseNatDigits (s.take 4)
  let mo := parseNatDigits ((s.drop 4).take 2)
  let d := parseNatDigits ((s.drop 6).take 2)
  let h := parseNatDigits ((s.drop 8).take 2)
  let mi := parseNatDigits ((s.drop 10).take 2)
  let se := parseNatDigits ((s.drop 12).take 2)
  if 1 ≤ mo ∧ mo ≤ 12 ∧ 1 ≤ d ∧ d ≤ daysInMonth y mo ∧ h ≤ 23 ∧ mi ≤ 59 ∧
      se ≤ 59 then
    some ⟨y, mo, d, h, mi, se⟩
  else none

/-- `generateTag` from `tag.go`. -/
def generateTag (branch sha : Str) (ts : DateTime) (attempt : Nat) : Str :=
  let b := sanitizeBranch branch
  let sha2 := if 7 < sha.length then sha.take 7 else sha
  let stamp := formatTimestamp ts
  let t := b ++ '-' :: (sha2 ++ '-' :: stamp)
  if 2 ≤ attempt then t ++ '-' :: goItoa attempt else t

/-- Character class of `shaRe`, `^[0-9a-f]{7}$`. -/
def isHexLower (c : Char) : Bool :=
  (decide ('0' ≤ c) && decide (c ≤ '9')) ||
    (decide ('a' ≤ c) && decide (c ≤ 'f'))

/-- Character class of `digitRe` and `timestampRe`. -/
def isDigitChar (c : Char) : Bool :=
  decide ('0' ≤ c) && decide (c ≤ '9')

/-- The decoded build identifier (`tag` struct in `tag.go`). -/
structure Tag where
  branch : Str
  sha : Str
  time : DateTime
  attempt : Nat
deriving DecidableEq, Repr

/-- The tail of `parseTag` after the attempt suffix has been resolved:
validate the timestamp segment, the SHA segment, and the branch segments
(`parts` is the remaining segment list, `attempt` the resolved counter). -/
def parseTagFrom (parts : List Str) (attempt : Nat) : Except Str Tag :=
  if parts.length < 3 then .error ("tag too short after removing attempt".data)
  else
    let tsStr := parts.getLast?.getD []
    if tsStr.length = 14 ∧ tsStr.all isDigitChar = true then
      match parseTimestamp tsStr with
      | none => .error ("invalid timestamp".data)
      | some ts =>
        let shaStr := parts.getD (parts.length - 2) []
        if shaStr.length = 7 ∧ shaStr.all isHexLower = true then
          if parts.take (parts.length - 2) = [] then
            .error ("empty branch in tag".data)
          else .ok ⟨joinChar '-' (parts.take (parts.length - 2)), shaStr, ts, attempt⟩
        else .error ("invalid SHA".data)
    else .error ("invalid timestamp".data)

/-- `parseTag` from `tag.go`: split on hyphens, strip a trailing numeric
attempt segment when it is not 14 digits long, then decode positionally
from the right. -/
def parseTag (s : Str) : Except Str Tag :=
  if s = [] then .error ("empty tag string".data)
  else
    let parts0 := splitOnChar '-' s
    if parts0.length < 3 then .error ("tag too short".data)
    else
      let last := parts0.getLast?.getD []
      if !last.isEmpty && last.all isDigitChar && !(last.length == 14) then
        parseTagFrom parts0.dropLast (parseNatDigits last)
      else parseTagFrom parts0 0

instance {α β : Type} [DecidableEq α] [DecidableEq β] : DecidableEq (Except α β) :=
  fun a b =>
  match a, b with
  | .error x, .error y => decidable_of_iff (x = y) (by simp)
  | .ok x, .ok y => decidable_of_iff (x = y) (by simp)
  | .error _, .ok _ => isFalse (by simp)
  | .ok _, .error _ => isFalse (by simp)

example : generateTag ("main".data) ("abcdef0123".data)
    ⟨2025, 1, 2, 3, 4, 5⟩ 0 = "main-abcdef0-20250102030405".data := by decide

example : generateTag ("fix/thing".data) ("abcdef0".data)
    ⟨2025, 1, 2, 3, 4, 5⟩ 3 = "fix-thing-abcdef0-20250102030405-3".data := by decide

example : parseTag ("main-abcdef0-20250102030405".data) =
    .ok ⟨"main".data, "abcdef0".data, ⟨2025, 1, 2, 3, 4, 5⟩, 0⟩ := by decide

example : parseTag ("fix-thing-abcdef0-20250102030405-3".data) =
    .ok ⟨"fix-thing".data, "abcdef0".data, ⟨2025, 1, 2, 3, 4, 5⟩, 3⟩ := by decide

end Hoist

namespace Hoist

theorem dash_not_mem_of_all_digit {l : Str} (h : l.all isDigitChar = true) :
    '-' ∉ l := by
  intro hm
  have := List.all_eq_true.mp h _ hm
  exact absurd this (by decide)

theorem dash_not_mem_of_all_hex {l : Str} (h : l.all isHexLower = true) :
    '-' ∉ l := by
  intro hm
  have := List.all_eq_true.mp h _ hm
  exact absurd this (by decide)

theorem goItoa_eq {n : Nat} (h : n ≠ 0) :
    goItoa n = (Nat.digits 10 n).reverse.map (fun d => Char.ofNat (48 + d)) := by
  rw [goItoa, if_neg h]
  exact goItoaAux_eq_digits n n le_rfl

theorem goItoa_ne_nil (n : Nat) : goItoa n ≠ [] := by
  by_cases h : n = 0
  · subst h; simp [goItoa]
  · rw [goItoa_eq h]
    simp [Nat.digits_ne_nil_iff_ne_zero.mpr h]

theorem isDigitChar_ofNat : ∀ d, d < 10 → isDigitChar (Char.ofNat (48 + d)) = true := by
  decide

theorem toNat_ofNat_digit : ∀ d, d < 10 → (Char.ofNat (48 + d)).toNat - 48 = d := by
  decide

theorem goItoa_all_digit (n : Nat) : (goItoa n).all isDigitChar = true := by
  by_cases h : n = 0
  · subst h; decide
  · rw [goItoa_eq h]
    rw [List.all_eq_true]
    intro c hc
    rcases List.mem_map.mp hc with ⟨d, hd, rfl⟩
    exact isDigitChar_ofNat d
      (Nat.digits_lt_base (by norm_num) (List.mem_reverse.mp hd))

/-- Accumulating decimal evaluation of a rendered digit list. -/
theorem foldl_digits_rev (l : List Nat) (hl : ∀ d ∈ l, d < 10) (acc : Nat) :
    (l.reverse.map (fun d => Char.ofNat (48 + d))).foldl
        (fun a c => a * 10 + (c.toNat - 48)) acc =
      acc * 10 ^ l.length + Nat.ofDigits 10 l := by
  induction l generalizing acc with
  | nil => simp
  | cons d l ih =>
    have hd : d < 10 := hl d (List.mem_cons_self d l)
    have hrest : ∀ e ∈ l, e < 10 := fun e he => hl e (List.mem_cons_of_mem d he)
    have hchar : (Char.ofNat (48 + d)).toNat - 48 = d := toNat_ofNat_digit d hd
    rw [show (d :: l).reverse.map (fun d => Char.ofNat (48 + d)) =
      l.reverse.map (fun d => Char.ofNat (48 + d)) ++ [Char.ofNat (48 + d)] by simp]
    rw [List.foldl_append, ih hrest acc]
    simp only [List.foldl_cons, List.foldl_nil, hchar, Nat.ofDigits_cons,
      List.length_cons]
    ring

theorem parseNatDigits_goItoa (n : Nat) : parseNatDigits (goItoa n) = n := by
  by_cases h : n = 0
  · subst h; decide
  · rw [goItoa_eq h, parseNatDigits]
    rw [foldl_digits_rev _ (fun d hd => Nat.digits_lt_base (by norm_num) hd) 0]
    simp [Nat.ofDigits_digits]

theorem digits_length_le_iff {n w : Nat} :
    (Nat.digits 10 n).length ≤ w ↔ n < 10 ^ w := by
  by_cases h0 : n = 0
  · subst h0
    simpa using pow_pos (by norm_num : (0 : Nat) < 10) w
  · constructor
    · intro h
      exact lt_of_lt_of_le (Nat.lt_base_pow_length_digits (by norm_num))
        (Nat.pow_le_pow_right (by norm_num) h)
    · intro h
      by_contra hw
      push_neg at hw
      rw [Nat.digits_len 10 n (by norm_num) h0] at hw
      have hle : w ≤ Nat.log 10 n := by omega
      have hpow : 10 ^ w ≤ n :=
        le_trans (Nat.pow_le_pow_right (by norm_num) hle)
          (Nat.pow_log_le_self 10 h0)
      omega

theorem goItoa_length_le_iff {n w : Nat} (hw : 1 ≤ w) :
    (goItoa n).length ≤ w ↔ n < 10 ^ w := by
  by_cases h : n = 0
  · subst h
    rw [goItoa, if_pos rfl]
    simpa [hw] using pow_pos (by norm_num : (0 : Nat) < 10) w
  · rw [goItoa_eq h]
    simp only [List.length_map, List.length_reverse]
    exact digits_length_le_iff

/-- The attempt suffix is 14 digits long exactly when the attempt lies in
`[10^13, 10^14)`. -/
theorem goItoa_length_ne_14 {n : Nat} (h : ¬(10 ^ 13 ≤ n ∧ n < 10 ^ 14)) :
    (goItoa n).length ≠ 14 := by
  intro hlen
  have h14 : (goItoa n).length ≤ 14 := le_of_eq hlen
  have h13 : ¬((goItoa n).length ≤ 13) := by omega
  rw [goItoa_length_le_iff (by norm_num)] at h14
  rw [goItoa_length_le_iff (by norm_num)] at h13
  exact h ⟨by omega, h14⟩

theorem parseNatDigits_pad (k : Nat) (s : Str) :
    parseNatDigits (List.replicate k '0' ++ s) = parseNatDigits s := by
  induction k with
  | zero => rfl
  | succ m ih =>
    rw [List.replicate_succ]
    simpa [parseNatDigits] using ih

theorem parseNatDigits_padNum (w n : Nat) :
    parseNatDigits (padNum w n) = n := by
  rw [padNum, parseNatDigits_pad]
  exact parseNatDigits_goItoa n

theorem padNum_length {w n : Nat} (hw : 1 ≤ w) (h : n < 10 ^ w) :
    (padNum w n).length = w := by
  have hle : (goItoa n).length ≤ w := (goItoa_length_le_iff hw).mpr h
  simp [padNum]
  omega

theorem padNum_all_digit (w n : Nat) : (padNum w n).all isDigitChar = true := by
  rw [List.all_eq_true]
  intro c hc
  rcases List.mem_append.mp hc with h | h
  · rw [List.eq_of_mem_replicate h]; decide
  · exact List.all_eq_true.mp (goItoa_all_digit n) c h

end Hoist

namespace Hoist

theorem take_append_len {α : Type} {l1 l2 : List α} {n : Nat}
    (h : l1.length = n) : (l1 ++ l2).take n = l1 := by
  subst h
  induction l1 with
  | nil => rfl
  | cons x l ih => simpa using ih

theorem drop_append_len {α : Type} {l1 l2 : List α} {n : Nat}
    (h : l1.length = n) : (l1 ++ l2).drop n = l2 := by
  subst h
  induction l1 with
  | nil => rfl
  | cons x l ih => simpa using ih

theorem daysInMonth_le_31 (y m : Nat) : daysInMonth y m ≤ 31 := by
  rw [daysInMonth]
  split_ifs <;> norm_num

theorem year_lt {t : DateTime} (h : validDateTime t) : t.year < 10 ^ 4 := by
  have h1 := h.1
  have : (10 : Nat) ^ 4 = 10000 := by norm_num
  omega

theorem month_lt {t : DateTime} (h : validDateTime t) : t.month < 10 ^ 2 := by
  have h1 := h.2.2.1
  have : (10 : Nat) ^ 2 = 100 := by norm_num
  omega

theorem day_lt {t : DateTime} (h : validDateTime t) : t.day < 10 ^ 2 := by
  have h1 := h.2.2.2.2.1
  have h2 := daysInMonth_le_31 t.year t.month
  have : (10 : Nat) ^ 2 = 100 := by norm_num
  omega

theorem hour_lt {t : DateTime} (h : validDateTime t) : t.hour < 10 ^ 2 := by
  have h1 := h.2.2.2.2.2.1
  have : (10 : Nat) ^ 2 = 100 := by norm_num
  omega

theorem minute_lt {t : DateTime} (h : validDateTime t) : t.minute < 10 ^ 2 := by
  have h1 := h.2.2.2.2.2.2.1
  have : (10 : Nat) ^ 2 = 100 := by norm_num
  omega

theorem second_lt {t : DateTime} (h : validDateTime t) : t.second < 10 ^ 2 := by
  have h1 := h.2.2.2.2.2.2.2
  have : (10 : Nat) ^ 2 = 100 := by norm_num
  omega

theorem formatTimestamp_length {t : DateTime} (h : validDateTime t) :
    (formatTimestamp t).length = 14 := by
  have h1 := padNum_length (by norm_num) (year_lt h)
  have h2 := padNum_length (by norm_num) (month_lt h)
  have h3 := padNum_length (by norm_num) (day_lt h)
  have h4 := padNum_length (by norm_num) (hour_lt h)
  have h5 := padNum_length (by norm_num) (minute_lt h)
  have h6 := padNum_length (by norm_num) (second_lt h)
  simp [formatTimestamp, h1, h2, h3, h4, h5, h6]

theorem formatTimestamp_all_digit (t : DateTime) :
    (formatTimestamp t).all isDigitChar = true := by
  simp [formatTimestamp, List.all_append, padNum_all_digit]

/-- Parsing the formatted timestamp of a valid `DateTime` recovers it. -/
theorem parseTimestamp_formatTimestamp {t : DateTime} (h : validDateTime t) :
    parseTimestamp (formatTimestamp t) = some t := by
  obtain ⟨y, mo, d, hh, mi, se⟩ := t
  have hy := padNum_length (by norm_num) (year_lt h)
  have hmo := padNum_length (by norm_num) (month_lt h)
  have hd := padNum_length (by norm_num) (day_lt h)
  have hhh := padNum_length (by norm_num) (hour_lt h)
  have hmi := padNum_length (by norm_num) (minute_lt h)
  simp only at hy hmo hd hhh hmi
  have hs : formatTimestamp ⟨y, mo, d, hh, mi, se⟩ =
      padNum 4 y ++ (padNum 2 mo ++ (padNum 2 d ++ (padNum 2 hh ++
        (padNum 2 mi ++ padNum 2 se)))) := by
    simp [formatTimestamp, List.append_assoc]
  have e1 : (formatTimestamp ⟨y, mo, d, hh, mi, se⟩).take 4 = padNum 4 y := by
    rw [hs]; exact take_append_len hy
  have f1 : (formatTimestamp ⟨y, mo, d, hh, mi, se⟩).drop 4 =
      padNum 2 mo ++ (padNum 2 d ++ (padNum 2 hh ++ (padNum 2 mi ++ padNum 2 se))) := by
    rw [hs]; exact drop_append_len hy
  have e2 : ((formatTimestamp ⟨y, mo, d, hh, mi, se⟩).drop 4).take 2 = padNum 2 mo := by
    rw [f1]; exact take_append_len hmo
  have f2 : (formatTimestamp ⟨y, mo, d, hh, mi, se⟩).drop 6 =
      padNum 2 d ++ (padNum 2 hh ++ (padNum 2 mi ++ padNum 2 se)) := by
    have hstep := congrArg (List.drop 2) f1
    rw [drop_append_len hmo] at hstep
    rw [← hstep]
    simp [List.drop_drop]
  have e3 : ((formatTimestamp ⟨y, mo, d, hh, mi, se⟩).drop 6).take 2 = padNum 2 d := by
    rw [f2]; exact take_append_len hd
  have f3 : (formatTimestamp ⟨y, mo, d, hh, mi, se⟩).drop 8 =
      padNum 2 hh ++ (padNum 2 mi ++ padNum 2 se) := by
    have hstep := congrArg (List.drop 2) f2
    rw [drop_append_len hd] at hstep
    rw [← hstep]
    simp [List.drop_drop]
  have e4 : ((formatTimestamp ⟨y, mo, d, hh, mi, se⟩).drop 8).take 2 = padNum 2 hh := by
    rw [f3]; exact take_append_len hhh
  have f4 : (formatTimestamp ⟨y, mo, d, hh, mi, se⟩).drop 10 =
      padNum 2 mi ++ padNum 2 se := by
    have hstep := congrArg (List.drop 2) f3
    rw [drop_append_len hhh] at hstep
    rw [← hstep]
    simp [List.drop_drop]
  have e5 : ((formatTimestamp ⟨y, mo, d, hh, mi, se⟩).drop 10).take 2 = padNum 2 mi := by
    rw [f4]; exact take_append_len hmi
  have f5 : (formatTimestamp ⟨y, mo, d, hh, mi, se⟩).drop 12 = padNum 2 se := by
    have hstep := congrArg (List.drop 2) f4
    rw [drop_append_len hmi] at hstep
    rw [← hstep]
    simp [List.drop_drop]
  have e6 : ((formatTimestamp ⟨y, mo, d, hh, mi, se⟩).drop 12).take 2 = padNum 2 se := by
    rw [f5]
    exact List.take_of_length_le (le_of_eq (padNum_length (by norm_num) (second_lt h)))
  rw [parseTimestamp]
  simp only [e1, e2, e3, e4, e5, e6, parseNatDigits_padNum]
  obtain ⟨hv1, hv2, hv3, hv4, hv5, hv6, hv7, hv8⟩ := h
  rw [if_pos ⟨hv2, hv3, hv4, hv5, hv6, hv7, hv8⟩]

end Hoist

namespace Hoist

/-- Decoding the segment list `branch-segments ++ [sha, stamp]` recovers
the hyphen-rejoined branch, the SHA and the timestamp. -/
theorem parseTagFrom_spec (B : List Str) (sha7 stamp : Str) (ts : DateTime)
    (att : Nat) (hB : B ≠ []) (hsl : sha7.length = 7)
    (hsa : sha7.all isHexLower = true) (htl : stamp.length = 14)
    (hta : stamp.all isDigitChar = true)
    (hts : parseTimestamp stamp = some ts) :
    parseTagFrom (B ++ [sha7, stamp]) att =
      .ok ⟨joinChar '-' B, sha7, ts, att⟩ := by
  have hBlen : 1 ≤ B.length := List.length_pos.mpr hB
  have hplen : (B ++ [sha7, stamp]).length = B.length + 2 := by simp
  have hlast : (B ++ [sha7, stamp]).getLast?.getD [] = stamp := by
    rw [show B ++ [sha7, stamp] = (B ++ [sha7]) ++ [stamp] by simp,
      List.getLast?_concat]
    rfl
  have hsha : (B ++ [sha7, stamp]).getD ((B ++ [sha7, stamp]).length - 2) [] =
      sha7 := by
    rw [hplen, Nat.add_sub_cancel, List.getD_eq_getElem?_getD,
      List.getElem?_append_right (le_refl B.length)]
    simp
  have htake : (B ++ [sha7, stamp]).take ((B ++ [sha7, stamp]).length - 2) = B := by
    rw [hplen, Nat.add_sub_cancel]
    exact take_append_len rfl
  rw [parseTagFrom, if_neg (by omega)]
  simp only [hlast, hsha, htake]
  rw [if_pos ⟨htl, hta⟩, hts]
  simp [hsl, hsa, hB]

/-- The `--4dig-` examination of the generated segment list. -/
theorem split_generated (branch sha : Str) (ts : DateTime)
    (hshalen : 7 ≤ sha.length) (hsha : sha.all isHexLower = true)
    (htv : validDateTime ts) :
    splitOnChar '-' (sanitizeBranch branch ++ '-' ::
        (sha.take 7 ++ '-' :: formatTimestamp ts)) =
      splitOnChar '-' (sanitizeBranch branch) ++ [sha.take 7, formatTimestamp ts] := by
  have hdsha : '-' ∉ sha.take 7 := by
    intro hm
    have hmem : '-' ∈ sha := List.mem_of_mem_take hm
    exact dash_not_mem_of_all_hex hsha hmem
  have hdst : '-' ∉ formatTimestamp ts :=
    dash_not_mem_of_all_digit (formatTimestamp_all_digit ts)
  rw [splitOnChar_append, splitOnChar_append, splitOnChar_of_not_mem hdsha,
    splitOnChar_of_not_mem hdst]
  rfl

/-- Claim C1 (amended): the tag codec round-trips every well-formed input
whose attempt counter does not render as exactly 14 decimal digits:
`parseTag (generateTag branch sha ts attempt)` succeeds and returns the
sanitized branch, the SHA truncated to 7 characters, the timestamp at
second precision (UTC wall-clock fields), and the normalized attempt
(`0` when `attempt < 2`, `attempt` otherwise). -/
theorem parseTag_generateTag (branch sha : Str) (ts : DateTime) (attempt : Nat)
    (hshalen : 7 ≤ sha.length) (hsha : sha.all isHexLower = true)
    (htv : validDateTime ts)
    (hatt : ¬(10 ^ 13 ≤ attempt ∧ attempt < 10 ^ 14)) :
    parseTag (generateTag branch sha ts attempt) =
      .ok ⟨sanitizeBranch branch, sha.take 7, ts,
        if 2 ≤ attempt then attempt else 0⟩ := by
  have hsha2 : (if 7 < sha.length then sha.take 7 else sha) = sha.take 7 := by
    by_cases h7 : 7 < sha.length
    · rw [if_pos h7]
    · rw [if_neg h7, List.take_of_length_le (by omega)]
  have hsl : (sha.take 7).length = 7 := by
    rw [List.length_take]
    omega
  have hsa : (sha.take 7).all isHexLower = true := by
    rw [List.all_eq_true]
    intro c hc
    exact List.all_eq_true.mp hsha c (List.mem_of_mem_take hc)
  have htl : (formatTimestamp ts).length = 14 := formatTimestamp_length htv
  have hta : (formatTimestamp ts).all isDigitChar = true :=
    formatTimestamp_all_digit ts
  have hpts : parseTimestamp (formatTimestamp ts) = some ts :=
    parseTimestamp_formatTimestamp htv
  have hBne : splitOnChar '-' (sanitizeBranch branch) ≠ [] :=
    splitOnChar_ne_nil '-' (sanitizeBranch branch)
  have hBlen : 1 ≤ (splitOnChar '-' (sanitizeBranch branch)).length :=
    List.length_pos.mpr hBne
  have hjB : joinChar '-' (splitOnChar '-' (sanitizeBranch branch)) =
      sanitizeBranch branch := joinChar_splitOnChar '-' (sanitizeBranch branch)
  have hsplitT := split_generated branch sha ts hshalen hsha htv
  by_cases hA : 2 ≤ attempt
  · -- attempt suffix present
    have htag : generateTag branch sha ts attempt =
        (sanitizeBranch branch ++ '-' :: (sha.take 7 ++ '-' :: formatTimestamp ts))
          ++ '-' :: goItoa attempt := by
      rw [generateTag]
      simp only [hsha2, if_pos hA]
    have hsplit : splitOnChar '-' (generateTag branch sha ts attempt) =
        (splitOnChar '-' (sanitizeBranch branch) ++
          [sha.take 7, formatTimestamp ts]) ++ [goItoa attempt] := by
      rw [htag, splitOnChar_append, hsplitT,
        splitOnChar_of_not_mem (dash_not_mem_of_all_digit (goItoa_all_digit attempt))]
    have hne : generateTag branch sha ts attempt ≠ [] := by
      rw [htag]; simp
    have hlast : (splitOnChar '-' (generateTag branch sha ts attempt)).getLast?.getD
        [] = goItoa attempt := by
      rw [hsplit, List.getLast?_concat]
      rfl
    have hattE : (goItoa attempt).isEmpty = false := by
      cases hgi : goItoa attempt with
      | nil => exact absurd hgi (goItoa_ne_nil attempt)
      | cons c l => rfl
    have hatt14 : ((goItoa attempt).length == 14) = false :=
      beq_eq_false_iff_ne.mpr (goItoa_length_ne_14 hatt)
    have hcond : (!(goItoa attempt).isEmpty && (goItoa attempt).all isDigitChar &&
        !((goItoa attempt).length == 14)) = true := by
      rw [hattE, goItoa_all_digit, hatt14]
      rfl
    have hdrop : (splitOnChar '-' (generateTag branch sha ts attempt)).dropLast =
        splitOnChar '-' (sanitizeBranch branch) ++ [sha.take 7, formatTimestamp ts] := by
      rw [hsplit, List.dropLast_concat]
    have hlen : ¬((splitOnChar '-' (generateTag branch sha ts attempt)).length < 3) := by
      rw [hsplit]
      simp only [List.length_append, List.length_cons, List.length_singleton]
      omega
    rw [parseTag, if_neg hne]
    simp only [hlast, hcond, if_neg hlen, if_true, hdrop, parseNatDigits_goItoa]
    rw [parseTagFrom_spec _ _ _ _ _ hBne hsl hsa htl hta hpts, hjB, if_pos hA]
  · -- no attempt suffix
    have htag : generateTag branch sha ts attempt =
        sanitizeBranch branch ++ '-' :: (sha.take 7 ++ '-' :: formatTimestamp ts) := by
      rw [generateTag]
      simp only [hsha2, if_neg hA]
    have hsplit : splitOnChar '-' (generateTag branch sha ts attempt) =
        splitOnChar '-' (sanitizeBranch branch) ++
          [sha.take 7, formatTimestamp ts] := by
      rw [htag, hsplitT]
    have hne : generateTag branch sha ts attempt ≠ [] := by
      rw [htag]; simp
    have hlast : (splitOnChar '-' (generateTag branch sha ts attempt)).getLast?.getD
        [] = formatTimestamp ts := by
      rw [hsplit, show splitOnChar '-' (sanitizeBranch branch) ++
        [sha.take 7, formatTimestamp ts] = (splitOnChar '-' (sanitizeBranch branch)
          ++ [sha.take 7]) ++ [formatTimestamp ts] by simp, List.getLast?_concat]
      rfl
    have hcond : (!(formatTimestamp ts).isEmpty && (formatTimestamp ts).all
        isDigitChar && !((formatTimestamp ts).length == 14)) = false := by
      rw [htl]
      simp
    have hlen : ¬((splitOnChar '-' (generateTag branch sha ts attempt)).length < 3) := by
      rw [hsplit]
      simp only [List.length_append, List.length_cons, List.length_singleton]
      omega
    rw [parseTag, if_neg hne]
    simp only [hlast, hcond, if_neg hlen, Bool.false_eq_true, if_false]
    rw [hsplit, parseTagFrom_spec _ _ _ _ _ hBne hsl hsa htl hta hpts, hjB,
      if_neg hA]

end Hoist

namespace Hoist

/-- Claim C1 (as written) is false: an attempt counter whose decimal
rendering is exactly 14 digits (here `10^13`) is mistaken for the
timestamp segment by the decoder, so the round trip fails even though
`(branch, sha, timestamp, attempt ≥ 0)` is well-formed. -/
theorem parseTag_generateTag_counterexample :
    parseTag (generateTag ("main".data) ("abcdef0".data)
        ⟨2025, 1, 2, 3, 4, 5⟩ 10000000000000) =
      .error ("invalid timestamp".data) ∧
    parseTag (generateTag ("main".data) ("abcdef0".data)
        ⟨2025, 1, 2, 3, 4, 5⟩ 10000000000000) ≠
      .ok ⟨sanitizeBranch ("main".data), ("abcdef0".data).take 7,
        ⟨2025, 1, 2, 3, 4, 5⟩, 10000000000000⟩ :=
  ⟨by decide, by decide⟩

/-- Concrete instance of claim C1 (amended): a slash-bearing branch, a
full 40-character SHA, a leap-day timestamp and attempt 5. -/
theorem parseTag_generateTag_witness :
    parseTag (generateTag ("feature/x".data)
        ("0123456789abcdef0123456789abcdef01234567".data)
        ⟨2024, 2, 29, 23, 59, 58⟩ 5) =
      .ok ⟨sanitizeBranch ("feature/x".data),
        ("0123456789abcdef0123456789abcdef01234567".data).take 7,
        ⟨2024, 2, 29, 23, 59, 58⟩, if 2 ≤ 5 then 5 else 0⟩ :=
  parseTag_generateTag _ _ _ _ (by decide) (by decide) (by decide) (by decide)

end Hoist

namespace Hoist

/-! ## Blue-green server deployer (`server_deployer.go`)

The remote command channel is modelled by a response function
`run : Str → RunRes` (command to captured output or error cause), and the
commands a deploy issues are collected as an observable trace, together
with the warning lines it logs.  The `select` loop of `pollHealthcheck`
is linearized by an event schedule (`PollEvent`): each loop iteration
consumes the channel that fired first.  An exhausted schedule is read as
the deadline firing, since Go's `time.After` channel always eventually
fires. -/

/-- Outcome of one remote command: captured output or an error cause. -/
abbrev RunRes := Except Str Str

structure envConfig where
  Node : Str
  Host : Str
  EnvFile : Str
  Bucket : Str
  CloudFront : Str

structure serviceConfig where
  type : Str
  Image : Str
  Port : Nat
  Healthcheck : Str
  Schedule : Str
  Command : Str
  Env : Str → envConfig

structure config where
  Project : Str
  Nodes : Str → Str
  Services : Str → serviceConfig

/-- A single quote character (kept out of string literals). -/
def sq : Char := Char.ofNat 39

/-- Go `strings.ReplaceAll(arg, singleQuote, quoteEscape)` used by
`shellJoin`: each single quote becomes quote, backslash, quote, quote. -/
def shellEscape (s : Str) : Str :=
  (s.map (fun c => if c = sq then [sq, '\\', sq, sq] else [c])).flatten

/-- One quoted argument of `shellJoin`. -/
def shellQuoteArg (arg : Str) : Str := sq :: shellEscape arg ++ [sq]

/-- `shellJoin` from `server_deployer.go`. -/
def shellJoin (args : List Str) : Str := joinChar ' ' (args.map shellQuoteArg)

/-- `buildDockerRunArgs` from `server_deployer.go`. -/
def buildDockerRunArgs (project service tag oldTag : Str) (svc : serviceConfig)
    (ec : envConfig) (env : Str) : List Str :=
  let args : List Str :=
    ["-d".data,
     "--name".data, service ++ "-".data ++ tag,
     "--restart".data, "unless-stopped".data,
     "--env-file".data, ec.EnvFile,
     "--log-driver".data, "awslogs".data,
     "--log-opt".data,
       "awslogs-group=/".data ++ project ++ "/".data ++ env ++ "/".data ++ service,
     "--label".data, "traefik.enable=true".data,
     "--label".data,
       "traefik.http.routers.".data ++ service ++ ".rule=Host(`".data ++
         ec.Host ++ "`)".data,
     "--label".data,
       "traefik.http.services.".data ++ service ++
         ".loadbalancer.server.port=".data ++ goItoa svc.Port,
     "--label".data, "hoist.previous=".data ++ oldTag,
     svc.Image ++ ":".data ++ tag]
  if svc.Command ≠ [] then args ++ [svc.Command] else args

/-- One linearized iteration of the `select` loop in `pollHealthcheck`:
the channel that fired first. -/
inductive PollEvent where
  | cancelled
  | deadline
  | tick
deriving DecidableEq, Repr

/-- The retry loop of `pollHealthcheck` after the failed immediate probe. -/
def pollLoop (run : Str → RunRes) (healthCmd timeoutStr : Str) :
    List PollEvent → List Str × Except Str Unit
  | [] => ([], .error ("timed out after ".data ++ timeoutStr))
  | .cancelled :: _ => ([], .error ("context canceled".data))
  | .deadline :: _ => ([], .error ("timed out after ".data ++ timeoutStr))
  | .tick :: es =>
    match run healthCmd with
    | .ok _ => ([healthCmd], .ok ())
    | .error _ =>
      let p := pollLoop run healthCmd timeoutStr es
      (healthCmd :: p.1, p.2)

/-- The `docker inspect` command that resolves the container bridge IP. -/
def inspectCmd (container : Str) : Str :=
  "docker inspect ".data ++ container ++ " --format ".data ++
    sq :: "\x7b\x7brange .NetworkSettings.Networks\x7d\x7d\x7b\x7b.IPAddress\x7d\x7d\x7b\x7bend\x7d\x7d".data
    ++ [sq]

/-- The `curl` probe command against the container bridge IP. -/
def curlCmd (ip : Str) (port : Nat) (path : Str) : Str :=
  "curl -sf http://".data ++ ip ++ ":".data ++ goItoa port ++ path

/-- `pollHealthcheck` from `server_deployer.go`: resolve the container's
bridge IP once, probe immediately, then retry per the event schedule. -/
def pollHealthcheck (run : Str → RunRes) (events : List PollEvent)
    (container : Str) (port : Nat) (path timeoutStr : Str) :
    List Str × Except Str Unit :=
  match run (inspectCmd container) with
  | .error e => ([inspectCmd container], .error ("getting container IP: ".data ++ e))
  | .ok ip =>
    match run (curlCmd ip port path) with
    | .ok _ => ([inspectCmd container, curlCmd ip port path], .ok ())
    | .error _ =>
      let p := pollLoop run (curlCmd ip port path) timeoutStr events
      (inspectCmd container :: curlCmd ip port path :: p.1, p.2)

/-- Go `unicode.IsSpace` restricted to the ASCII whitespace that
`strings.TrimSpace` trims on docker output. -/
def isGoSpace (c : Char) : Bool :=
  decide (c = ' ') || decide (c = '\t') || decide (c = '\n') || decide (c = '\r')

/-- Go `strings.TrimSpace`. -/
def trimSpace (s : Str) : Str :=
  ((s.dropWhile isGoSpace).reverse.dropWhile isGoSpace).reverse

/-- The output parsing of `listServiceContainers`: trim, split lines,
trim each, keep those with the `service-` prefix. -/
def parseContainers (service : Str) (out : Str) : List Str :=
  let out2 := trimSpace out
  if out2 = [] then []
  else ((splitOnChar '\n' out2).map trimSpace).filter
    (fun l => (service ++ "-".data).isPrefixOf l)

/-- The `docker stop` command for one container. -/
def stopCmd (name : Str) : Str := "docker stop ".data ++ name

/-- The `docker rm` command for one container. -/
def rmCmd (name : Str) : Str := "docker rm ".data ++ name

/-- The warning logged when stopping an old container fails. -/
def warnStop (name e : Str) : Str :=
  "warning: failed to stop ".data ++ name ++ ": ".data ++ e

/-- The warning logged when removing an old container fails. -/
def warnRm (name e : Str) : Str :=
  "warning: failed to remove ".data ++ name ++ ": ".data ++ e

/-- The decommission loop of `deploy`: stop and remove every listed
container except the new one; failures are logged as warnings and do not
stop the sweep. -/
def sweepOld (run : Str → RunRes) (newName : Str) :
    List Str → List Str × List Str
  | [] => ([], [])
  | name :: rest =>
    if name = newName then sweepOld run newName rest
    else
      match run (stopCmd name) with
      | .error e =>
        let p := sweepOld run newName rest
        (stopCmd name :: p.1, warnStop name e :: p.2)
      | .ok _ =>
        match run (rmCmd name) with
        | .error e =>
          let p := sweepOld run newName rest
          (stopCmd name :: rmCmd name :: p.1, warnRm name e :: p.2)
        | .ok _ =>
          let p := sweepOld run newName rest
          (stopCmd name :: rmCmd name :: p.1, p.2)

/-- The tail of `deploy` from the `docker run` onward (the rename, if
any, has already happened). -/
def deployFromRun (run : Str → RunRes) (events : List PollEvent)
    (timeoutStr project service env tag oldTag : Str) (svc : serviceConfig)
    (ec : envConfig) : List Str × List Str × Except Str Unit :=
  let containerName := service ++ "-".data ++ tag
  let runCmd := "docker run ".data ++
    shellJoin (buildDockerRunArgs project service tag oldTag svc ec env)
  match run runCmd with
  | .error e =>
    ([runCmd, "docker rm ".data ++ containerName], [],
      .error ("starting container: ".data ++ e))
  | .ok _ =>
    let p := pollHealthcheck run events containerName svc.Port svc.Healthcheck
      timeoutStr
    match p.2 with
    | .error e =>
      (runCmd :: p.1 ++
          ["docker stop ".data ++ containerName, "docker rm ".data ++ containerName],
        [], .error ("healthcheck failed: ".data ++ e))
    | .ok _ =>
      let newName := service ++ "-".data ++ tag
      let psCmd := "docker ps --filter \"name=".data ++ service ++
        "-\" --format \"\x7b\x7b.Names\x7d\x7d\"".data
      match run psCmd with
      | .error e =>
        (runCmd :: p.1 ++ [psCmd],
          ["warning: failed to list old containers: ".data ++ e], .ok ())
      | .ok out =>
        let sw := sweepOld run newName (parseContainers service out)
        (runCmd :: p.1 ++ psCmd :: sw.1, sw.2, .ok ())

/-- `serverDeployer.deploy` from `server_deployer.go`: connect, pull,
rename aside on a same-tag redeploy, start, poll health, then either
clean up the new container (health failure) or sweep all old containers
(health success). -/
def deployServer (cfg : config) (dialErr : Option Str) (run : Str → RunRes)
    (events : List PollEvent) (timeoutStr service env tag oldTag : Str) :
    List Str × List Str × Except Str Unit :=
  let svc := cfg.Services service
  let ec := svc.Env env
  let addr := cfg.Nodes ec.Node
  match dialErr with
  | some e => ([], [], .error ("connecting to ".data ++ addr ++ ": ".data ++ e))
  | none =>
    let pullCmd := "docker pull ".data ++ svc.Image ++ ":".data ++ tag
    match run pullCmd with
    | .error e => ([pullCmd], [], .error ("pulling image: ".data ++ e))
    | .ok _ =>
      if tag = oldTag ∧ oldTag ≠ [] then
        let oldName := service ++ "-".data ++ oldTag
        let tempName := oldName ++ "-old".data
        let renameCmd := "docker rename ".data ++ oldName ++ " ".data ++ tempName
        match run renameCmd with
        | .error e =>
          ([pullCmd, renameCmd], [], .error ("renaming old container: ".data ++ e))
        | .ok _ =>
          let p := deployFromRun run events timeoutStr cfg.Project service env
            tag oldTag svc ec
          (pullCmd :: renameCmd :: p.1, p.2.1, p.2.2)
      else
        let p := deployFromRun run events timeoutStr cfg.Project service env
          tag oldTag svc ec
        (pullCmd :: p.1, p.2.1, p.2.2)

end Hoist

namespace Hoist

theorem ne_of_take_ne {α : Type} {x y : List α} (n : Nat)
    (h : x.take n ≠ y.take n) : x ≠ y := fun he => h (he ▸ rfl)

theorem take_append_of_le {α : Type} {l1 l2 : List α} {n : Nat}
    (h : n ≤ l1.length) : (l1 ++ l2).take n = l1.take n := by
  induction l1 generalizing n with
  | nil =>
    have : n = 0 := by simpa using h
    subst this
    rfl
  | cons a l ih =>
    cases n with
    | zero => rfl
    | succ m =>
      simp only [List.cons_append, List.take_succ_cons]
      rw [ih (by simpa using h)]

/-- Every retry probe issues the same health command. -/
theorem pollLoop_mem (run : Str → RunRes) (healthCmd timeoutStr : Str)
    (events : List PollEvent) :
    ∀ c ∈ (pollLoop run healthCmd timeoutStr events).1, c = healthCmd := by
  induction events with
  | nil => intro c hc; simp [pollLoop] at hc
  | cons e es ih =>
    intro c hc
    cases e with
    | cancelled => simp [pollLoop] at hc
    | deadline => simp [pollLoop] at hc
    | tick =>
      simp only [pollLoop] at hc
      cases hr : run healthCmd with
      | ok o =>
        rw [hr] at hc
        simp at hc
        exact hc
      | error e2 =>
        rw [hr] at hc
        simp at hc
        rcases hc with rfl | hc
        · rfl
        · exact ih c hc

theorem inspectCmd_take10 (container : Str) :
    (inspectCmd container).take 10 = "docker ins".data := by
  rw [inspectCmd]
  simp only [List.append_assoc]
  rw [take_append_of_le (by decide)]
  decide

theorem curlCmd_take10 (ip : Str) (port : Nat) (path : Str) :
    (curlCmd ip port path).take 10 = "curl -sf h".data := by
  rw [curlCmd]
  simp only [List.append_assoc]
  rw [take_append_of_le (by decide)]
  decide

/-- Every command the health poller issues is a `docker inspect` or a
`curl` probe (identified by their first ten characters). -/
theorem pollHealthcheck_trace_shape (run : Str → RunRes)
    (events : List PollEvent) (container : Str) (port : Nat)
    (path timeoutStr : Str) :
    ∀ c ∈ (pollHealthcheck run events container port path timeoutStr).1,
      c.take 10 = "docker ins".data ∨ c.take 10 = "curl -sf h".data := by
  intro c hc
  rw [pollHealthcheck] at hc
  split at hc
  · simp at hc
    subst hc
    exact Or.inl (inspectCmd_take10 container)
  · rename_i ip hr
    split at hc
    · simp at hc
      rcases hc with rfl | rfl
      · exact Or.inl (inspectCmd_take10 container)
      · exact Or.inr (curlCmd_take10 ip port path)
    · simp at hc
      rcases hc with rfl | rfl | hc
      · exact Or.inl (inspectCmd_take10 container)
      · exact Or.inr (curlCmd_take10 ip port path)
      · have := pollLoop_mem run _ timeoutStr events c hc
        subst this
        exact Or.inr (curlCmd_take10 ip port path)

end Hoist

namespace Hoist

theorem take10_stop (x : Str) :
    ("docker stop ".data ++ x).take 10 = "docker sto".data := by
  rw [take_append_of_le (by decide)]
  decide

theorem take10_rm (x : Str) :
    ("docker rm ".data ++ x).take 10 = "docker rm ".data := by
  rw [take_append_of_le (by decide)]
  decide

theorem take10_pull (x : Str) :
    ("docker pull ".data ++ x).take 10 = "docker pul".data := by
  rw [take_append_of_le (by decide)]
  decide

theorem take10_run (x : Str) :
    ("docker run ".data ++ x).take 10 = "docker run".data := by
  rw [take_append_of_le (by decide)]
  decide

theorem take10_rename (x : Str) :
    ("docker rename ".data ++ x).take 10 = "docker ren".data := by
  rw [take_append_of_le (by decide)]
  decide

theorem take10_ps (x y : Str) :
    ("docker ps --filter \"name=".data ++ x ++
      "-\" --format \"\x7b\x7b.Names\x7d\x7d\"".data ++ y).take 10 =
      "docker ps ".data := by
  simp only [List.append_assoc]
  rw [take_append_of_le (by decide)]
  decide

/-- Container names `service-a` and `service-b` coincide only when the
tags do. -/
theorem containerName_inj {service a b : Str}
    (h : service ++ "-".data ++ a = service ++ "-".data ++ b) : a = b := by
  have hdash : "-".data = ['-'] := rfl
  rw [hdash] at h
  simp only [List.append_assoc, List.singleton_append] at h
  have h1 := List.append_cancel_left h
  simpa using h1

/-- Claim C3: when the container starts but the health poll fails (by
timeout or cancellation), the deploy issues `docker stop` and `docker rm`
for the newly started container, returns the error wrapped as
`healthcheck failed: <cause>`, and never issues a stop or remove for the
previously running container. -/
theorem deployServer_health_failure (cfg : config) (run : Str → RunRes)
    (events : List PollEvent) (timeoutStr service env tag oldTag : Str)
    (pullOut runOut : Str) (ptrace : List Str) (cause : Str)
    (hdiff : tag ≠ oldTag) (hold : oldTag ≠ [])
    (hpull : run ("docker pull ".data ++ (cfg.Services service).Image ++
      ":".data ++ tag) = .ok pullOut)
    (hrun : run ("docker run ".data ++ shellJoin (buildDockerRunArgs
      cfg.Project service tag oldTag (cfg.Services service)
      ((cfg.Services service).Env env) env)) = .ok runOut)
    (hpoll : pollHealthcheck run events (service ++ "-".data ++ tag)
      (cfg.Services service).Port (cfg.Services service).Healthcheck
      timeoutStr = (ptrace, .error cause)) :
    deployServer cfg none run events timeoutStr service env tag oldTag =
      (("docker pull ".data ++ (cfg.Services service).Image ++ ":".data ++ tag) ::
        ("docker run ".data ++ shellJoin (buildDockerRunArgs cfg.Project
          service tag oldTag (cfg.Services service)
          ((cfg.Services service).Env env) env)) ::
        (ptrace ++ ["docker stop ".data ++ (service ++ "-".data ++ tag),
          "docker rm ".data ++ (service ++ "-".data ++ tag)]),
        [], .error ("healthcheck failed: ".data ++ cause)) ∧
    ("docker stop ".data ++ (service ++ "-".data ++ oldTag)) ∉
      (deployServer cfg none run events timeoutStr service env tag oldTag).1 ∧
    ("docker rm ".data ++ (service ++ "-".data ++ oldTag)) ∉
      (deployServer cfg none run events timeoutStr service env tag oldTag).1 := by
  have hcond : ¬(tag = oldTag ∧ oldTag ≠ []) := fun hpair => hdiff hpair.1
  have heq : deployServer cfg none run events timeoutStr service env tag oldTag =
      (("docker pull ".data ++ (cfg.Services service).Image ++ ":".data ++ tag) ::
        ("docker run ".data ++ shellJoin (buildDockerRunArgs cfg.Project
          service tag oldTag (cfg.Services service)
          ((cfg.Services service).Env env) env)) ::
        (ptrace ++ ["docker stop ".data ++ (service ++ "-".data ++ tag),
          "docker rm ".data ++ (service ++ "-".data ++ tag)]),
        [], .error ("healthcheck failed: ".data ++ cause)) := by
    simp only [deployServer, hpull, if_neg hcond, deployFromRun, hrun, hpoll]
    rfl
  have hptrace : ∀ c ∈ ptrace,
      c.take 10 = "docker ins".data ∨ c.take 10 = "curl -sf h".data := by
    intro c hc
    have h1 := congrArg Prod.fst hpoll
    exact pollHealthcheck_trace_shape run events _ _ _ _ c (by rw [h1]; exact hc)
  refine ⟨heq, ?_, ?_⟩
  · rw [heq]
    intro hmem
    rcases List.mem_cons.mp hmem with h | hmem
    · exact ne_of_take_ne 10 (by
        simp only [List.append_assoc]
        rw [take10_stop, take10_pull]
        decide) h
    rcases List.mem_cons.mp hmem with h | hmem
    · exact ne_of_take_ne 10 (by rw [take10_stop, take10_run]; decide) h
    rcases List.mem_append.mp hmem with h | hmem
    · rcases hptrace _ h with h2 | h2 <;>
        · rw [take10_stop] at h2
          exact absurd h2 (by decide)
    rcases List.mem_cons.mp hmem with h | hmem
    · exact hdiff (containerName_inj (List.append_cancel_left h)).symm
    rcases List.mem_cons.mp hmem with h | hmem
    · exact ne_of_take_ne 10 (by rw [take10_stop, take10_rm]; decide) h
    exact List.not_mem_nil _ hmem
  · rw [heq]
    intro hmem
    rcases List.mem_cons.mp hmem with h | hmem
    · exact ne_of_take_ne 10 (by
        simp only [List.append_assoc]
        rw [take10_rm, take10_pull]
        decide) h
    rcases List.mem_cons.mp hmem with h | hmem
    · exact ne_of_take_ne 10 (by rw [take10_rm, take10_run]; decide) h
    rcases List.mem_append.mp hmem with h | hmem
    · rcases hptrace _ h with h2 | h2 <;>
        · rw [take10_rm] at h2
          exact absurd h2 (by decide)
    rcases List.mem_cons.mp hmem with h | hmem
    · exact ne_of_take_ne 10 (by rw [take10_rm, take10_stop]; decide) h
    rcases List.mem_cons.mp hmem with h | hmem
    · exact hdiff (containerName_inj (List.append_cancel_left h)).symm
    exact List.not_mem_nil _ hmem

end Hoist

namespace Hoist

/-- Test fixture: environment binding used by concrete deploy scenarios. -/
def testEc : envConfig :=
  { Node := "node1".data, Host := "api.example.com".data,
    EnvFile := "/etc/env".data, Bucket := [], CloudFront := [] }

/-- Test fixture: a server service. -/
def testSvc : serviceConfig :=
  { type := "server".data, Image := "myapp/backend".data, Port := 8080,
    Healthcheck := "/health".data, Schedule := [], Command := [],
    Env := fun _ => testEc }

/-- Test fixture: a one-service fleet configuration. -/
def testCfg : config :=
  { Project := "myapp".data, Nodes := fun _ => "10.0.0.1".data,
    Services := fun _ => testSvc }

/-- Remote responses where every health probe fails and everything else
succeeds (the inspect returns the bridge IP). -/
def runHealthFail : Str → RunRes := fun c =>
  if ("curl -sf h".data).isPrefixOf c then .error ("unhealthy".data)
  else .ok ("172.17.0.2".data)

/-- Concrete instance of claim C3: health poll times out; the new
container is stopped and removed, the old one is untouched. -/
theorem deployServer_health_failure_witness :
    deployServer testCfg none runHealthFail [PollEvent.deadline] ("2m0s".data)
        ("backend".data) ("staging".data) ("t1".data) ("t0".data) =
      (("docker pull ".data ++ (testCfg.Services ("backend".data)).Image ++
          ":".data ++ "t1".data) ::
        ("docker run ".data ++ shellJoin (buildDockerRunArgs testCfg.Project
          ("backend".data) ("t1".data) ("t0".data)
          (testCfg.Services ("backend".data))
          ((testCfg.Services ("backend".data)).Env ("staging".data))
          ("staging".data))) ::
        ([inspectCmd ("backend".data ++ "-".data ++ "t1".data),
            curlCmd ("172.17.0.2".data) 8080 ("/health".data)] ++
          ["docker stop ".data ++ ("backend".data ++ "-".data ++ "t1".data),
            "docker rm ".data ++ ("backend".data ++ "-".data ++ "t1".data)]),
        [], .error ("healthcheck failed: ".data ++ "timed out after 2m0s".data)) ∧
    ("docker stop ".data ++ ("backend".data ++ "-".data ++ "t0".data)) ∉
      (deployServer testCfg none runHealthFail [PollEvent.deadline] ("2m0s".data)
        ("backend".data) ("staging".data) ("t1".data) ("t0".data)).1 ∧
    ("docker rm ".data ++ ("backend".data ++ "-".data ++ "t0".data)) ∉
      (deployServer testCfg none runHealthFail [PollEvent.deadline] ("2m0s".data)
        ("backend".data) ("staging".data) ("t1".data) ("t0".data)).1 :=
  deployServer_health_failure testCfg runHealthFail [PollEvent.deadline]
    ("2m0s".data) ("backend".data) ("staging".data) ("t1".data) ("t0".data)
    ("172.17.0.2".data) ("172.17.0.2".data)
    [inspectCmd ("backend".data ++ "-".data ++ "t1".data),
      curlCmd ("172.17.0.2".data) 8080 ("/health".data)]
    ("timed out after 2m0s".data)
    (by decide) (by decide) (by decide) (by decide) (by decide)

/-- Remote responses where the `docker run` fails and everything else
succeeds. -/
def runStartFail : Str → RunRes := fun c =>
  if ("docker run ".data).isPrefixOf c then .error ("boom".data)
  else .ok []

/-- Claim C4 (as written) is false: on a same-tag redeploy whose
`docker run` fails after the existing container was renamed aside, the
deploy removes the half-created container and reports the
`starting container` error, but it never issues the rename that would
move the existing container back to its original name. -/
theorem deployServer_start_failure_counterexample :
    (deployServer testCfg none runStartFail [] ("2m0s".data) ("backend".data)
        ("staging".data) ("t1".data) ("t1".data)).2.2 =
      .error ("starting container: boom".data) ∧
    ("docker rename backend-t1 backend-t1-old".data) ∈
      (deployServer testCfg none runStartFail [] ("2m0s".data) ("backend".data)
        ("staging".data) ("t1".data) ("t1".data)).1 ∧
    ("docker rename backend-t1-old backend-t1".data) ∉
      (deployServer testCfg none runStartFail [] ("2m0s".data) ("backend".data)
        ("staging".data) ("t1".data) ("t1".data)).1 :=
  ⟨by decide, by decide, by decide⟩

/-- Claim C4 (amended): on a same-tag redeploy (existing container renamed
aside) whose `docker run` fails, the deploy removes the half-created
container with `docker rm` and reports the error wrapped as
`starting container: <cause>`; the rename is not rolled back — no
reverse `docker rename` is issued. -/
theorem deployServer_start_failure (cfg : config) (run : Str → RunRes)
    (events : List PollEvent) (timeoutStr service env tag oldTag : Str)
    (pullOut renameOut e : Str)
    (hsame : tag = oldTag) (hold : oldTag ≠ [])
    (hpull : run ("docker pull ".data ++ (cfg.Services service).Image ++
      ":".data ++ tag) = .ok pullOut)
    (hrename : run ("docker rename ".data ++ (service ++ "-".data ++ oldTag) ++
      " ".data ++ ((service ++ "-".data ++ oldTag) ++ "-old".data)) =
      .ok renameOut)
    (hrun : run ("docker run ".data ++ shellJoin (buildDockerRunArgs
      cfg.Project service tag oldTag (cfg.Services service)
      ((cfg.Services service).Env env) env)) = .error e) :
    deployServer cfg none run events timeoutStr service env tag oldTag =
      ([("docker pull ".data ++ (cfg.Services service).Image ++ ":".data ++ tag),
        ("docker rename ".data ++ (service ++ "-".data ++ oldTag) ++ " ".data ++
          ((service ++ "-".data ++ oldTag) ++ "-old".data)),
        ("docker run ".data ++ shellJoin (buildDockerRunArgs cfg.Project
          service tag oldTag (cfg.Services service)
          ((cfg.Services service).Env env) env)),
        ("docker rm ".data ++ (service ++ "-".data ++ tag))],
        [], .error ("starting container: ".data ++ e)) ∧
    ("docker rename ".data ++ ((service ++ "-".data ++ oldTag) ++ "-old".data) ++
        " ".data ++ (service ++ "-".data ++ oldTag)) ∉
      (deployServer cfg none run events timeoutStr service env tag oldTag).1 := by
  have heq : deployServer cfg none run events timeoutStr service env tag oldTag =
      ([("docker pull ".data ++ (cfg.Services service).Image ++ ":".data ++ tag),
        ("docker rename ".data ++ (service ++ "-".data ++ oldTag) ++ " ".data ++
          ((service ++ "-".data ++ oldTag) ++ "-old".data)),
        ("docker run ".data ++ shellJoin (buildDockerRunArgs cfg.Project
          service tag oldTag (cfg.Services service)
          ((cfg.Services service).Env env) env)),
        ("docker rm ".data ++ (service ++ "-".data ++ tag))],
        [], .error ("starting container: ".data ++ e)) := by
    simp only [deployServer, hpull, if_pos (And.intro hsame hold), hrename,
      deployFromRun, hrun]
  refine ⟨heq, ?_⟩
  rw [heq]
  intro hmem
  rcases List.mem_cons.mp hmem with h | hmem
  · exact ne_of_take_ne 10 (by
      simp only [List.append_assoc]
      rw [take10_rename, take10_pull]
      decide) h
  rcases List.mem_cons.mp hmem with h | hmem
  · -- reverse rename versus forward rename
    simp only [List.append_assoc] at h
    have h1 := List.append_cancel_left h
    have h2 := List.append_cancel_left h1
    have h3 := List.append_cancel_left h2
    have h4 := List.append_cancel_left h3
    have h5 := congrArg (List.take 1) h4
    rw [take_append_of_le (by decide), take_append_of_le (by decide)] at h5
    exact absurd h5 (by decide)
  rcases List.mem_cons.mp hmem with h | hmem
  · exact ne_of_take_ne 10 (by
      simp only [List.append_assoc]
      rw [take10_rename, take10_run]
      decide) h
  rcases List.mem_cons.mp hmem with h | hmem
  · exact ne_of_take_ne 10 (by
      simp only [List.append_assoc]
      rw [take10_rename, take10_rm]
      decide) h
  exact List.not_mem_nil _ hmem

/-- Concrete instance of claim C4 (amended). -/
theorem deployServer_start_failure_witness :
    deployServer testCfg none runStartFail [] ("2m0s".data) ("backend".data)
        ("staging".data) ("t1".data) ("t1".data) =
      ([("docker pull ".data ++ (testCfg.Services ("backend".data)).Image ++
          ":".data ++ "t1".data),
        ("docker rename ".data ++ ("backend".data ++ "-".data ++ "t1".data) ++
          " ".data ++ (("backend".data ++ "-".data ++ "t1".data) ++ "-old".data)),
        ("docker run ".data ++ shellJoin (buildDockerRunArgs testCfg.Project
          ("backend".data) ("t1".data) ("t1".data)
          (testCfg.Services ("backend".data))
          ((testCfg.Services ("backend".data)).Env ("staging".data))
          ("staging".data))),
        ("docker rm ".data ++ ("backend".data ++ "-".data ++ "t1".data))],
        [], .error ("starting container: ".data ++ "boom".data)) ∧
    ("docker rename ".data ++
        (("backend".data ++ "-".data ++ "t1".data) ++ "-old".data) ++ " ".data ++
        ("backend".data ++ "-".data ++ "t1".data)) ∉
      (deployServer testCfg none runStartFail [] ("2m0s".data) ("backend".data)
        ("staging".data) ("t1".data) ("t1".data)).1 :=
  deployServer_start_failure testCfg runStartFail [] ("2m0s".data)
    ("backend".data) ("staging".data) ("t1".data) ("t1".data) [] []
    ("boom".data) (by decide) (by decide) (by decide) (by decide) (by decide)

end Hoist

namespace Hoist

/-- Per-container guarantees of the decommission sweep: every listed
container other than the new one gets a `docker stop`; a stop failure is
logged and does not prevent the others; after a successful stop the
container gets a `docker rm`, whose failure is also only logged. -/
theorem sweepOld_spec (run : Str → RunRes) (newName : Str)
    (names : List Str) :
    ∀ name ∈ names, name ≠ newName →
      stopCmd name ∈ (sweepOld run newName names).1 ∧
      (∀ e, run (stopCmd name) = .error e →
        warnStop name e ∈ (sweepOld run newName names).2) ∧
      (∀ o, run (stopCmd name) = .ok o →
        rmCmd name ∈ (sweepOld run newName names).1 ∧
        (∀ e, run (rmCmd name) = .error e →
          warnRm name e ∈ (sweepOld run newName names).2)) := by
  induction names with
  | nil => intro name h; simp at h
  | cons n rest ih =>
    intro name hmem hne
    rcases List.mem_cons.mp hmem with rfl | hmem
    · -- head container
      rw [sweepOld, if_neg hne]
      cases hstop : run (stopCmd name) with
      | error e2 =>
        refine ⟨by simp, fun e he => ?_, fun o ho => ?_⟩
        · simp only [Except.error.injEq] at he
          subst he
          simp
        · exact absurd ho (by simp)
      | ok o2 =>
        cases hrm : run (rmCmd name) with
        | error e3 =>
          refine ⟨by simp, fun e he => ?_, fun o ho => ?_⟩
          · exact absurd he (by simp)
          · refine ⟨by simp, fun e he => ?_⟩
            simp only [Except.error.injEq] at he
            subst he
            simp
        | ok o3 =>
          refine ⟨by simp, fun e he => ?_, fun o ho => ?_⟩
          · exact absurd he (by simp)
          · refine ⟨by simp, fun e he => ?_⟩
            exact absurd he (by simp)
    · -- container further down: lift memberships over the head's commands
      obtain ⟨m1, m2, m3⟩ := ih name hmem hne
      rw [sweepOld]
      by_cases hn : n = newName
      · rw [if_pos hn]
        exact ⟨m1, m2, m3⟩
      · rw [if_neg hn]
        cases hstop : run (stopCmd n) with
        | error e2 =>
          refine ⟨by simp [m1], fun e he => by simp [m2 e he], fun o ho => ?_⟩
          obtain ⟨r1, r2⟩ := m3 o ho
          exact ⟨by simp [r1], fun e he => by simp [r2 e he]⟩
        | ok o2 =>
          cases hrm : run (rmCmd n) with
          | error e3 =>
            refine ⟨by simp [m1], fun e he => by simp [m2 e he], fun o ho => ?_⟩
            obtain ⟨r1, r2⟩ := m3 o ho
            exact ⟨by simp [r1], fun e he => by simp [r2 e he]⟩
          | ok o3 =>
            refine ⟨by simp [m1], fun e he => by simp [m2 e he], fun o ho => ?_⟩
            obtain ⟨r1, r2⟩ := m3 o ho
            exact ⟨by simp [r1], fun e he => by simp [r2 e he]⟩

/-- On health success the deploy tail lists the service's containers and
runs the sweep, returning success. -/
theorem deployFromRun_success (run : Str → RunRes) (events : List PollEvent)
    (timeoutStr project service env tag oldTag : Str) (svc : serviceConfig)
    (ec : envConfig) (runOut psOut : Str) (ptrace : List Str)
    (hrun : run ("docker run ".data ++ shellJoin (buildDockerRunArgs project
      service tag oldTag svc ec env)) = .ok runOut)
    (hpoll : pollHealthcheck run events (service ++ "-".data ++ tag) svc.Port
      svc.Healthcheck timeoutStr = (ptrace, .ok ()))
    (hps : run ("docker ps --filter \"name=".data ++ service ++
      "-\" --format \"\x7b\x7b.Names\x7d\x7d\"".data) = .ok psOut) :
    deployFromRun run events timeoutStr project service env tag oldTag svc ec =
      (("docker run ".data ++ shellJoin (buildDockerRunArgs project service
          tag oldTag svc ec env)) :: ptrace ++
          ("docker ps --filter \"name=".data ++ service ++
            "-\" --format \"\x7b\x7b.Names\x7d\x7d\"".data) ::
          (sweepOld run (service ++ "-".data ++ tag)
            (parseContainers service psOut)).1,
        (sweepOld run (service ++ "-".data ++ tag)
          (parseContainers service psOut)).2,
        .ok ()) := by
  simp only [deployFromRun, hrun, hpoll, hps]

/-- With the pull (and the rename, when taken) succeeding, the deploy is
the deploy tail behind a prefix of setup commands. -/
theorem deployServer_decompose (cfg : config) (run : Str → RunRes)
    (events : List PollEvent) (timeoutStr service env tag oldTag : Str)
    (pullOut : Str)
    (hpull : run ("docker pull ".data ++ (cfg.Services service).Image ++
      ":".data ++ tag) = .ok pullOut)
    (hren : tag = oldTag ∧ oldTag ≠ [] → ∃ o, run ("docker rename ".data ++
      (service ++ "-".data ++ oldTag) ++ " ".data ++
      ((service ++ "-".data ++ oldTag) ++ "-old".data)) = .ok o) :
    ∃ pre, deployServer cfg none run events timeoutStr service env tag oldTag =
      (pre ++ (deployFromRun run events timeoutStr cfg.Project service env tag
          oldTag (cfg.Services service) ((cfg.Services service).Env env)).1,
        (deployFromRun run events timeoutStr cfg.Project service env tag oldTag
          (cfg.Services service) ((cfg.Services service).Env env)).2.1,
        (deployFromRun run events timeoutStr cfg.Project service env tag oldTag
          (cfg.Services service) ((cfg.Services service).Env env)).2.2) := by
  by_cases hcase : tag = oldTag ∧ oldTag ≠ []
  · obtain ⟨o, hro⟩ := hren hcase
    refine ⟨[("docker pull ".data ++ (cfg.Services service).Image ++ ":".data ++
      tag), ("docker rename ".data ++ (service ++ "-".data ++ oldTag) ++
      " ".data ++ ((service ++ "-".data ++ oldTag) ++ "-old".data))], ?_⟩
    simp only [deployServer, hpull, if_pos hcase, hro]
    rfl
  · refine ⟨[("docker pull ".data ++ (cfg.Services service).Image ++ ":".data ++
      tag)], ?_⟩
    simp only [deployServer, hpull, if_neg hcase]
    rfl

/-- Claim C5: when the health poll succeeds, the deploy succeeds and, for
every running container of the service other than the newly started one
(as listed by `docker ps`, including orphans), a `docker stop` is issued;
a stop failure is logged as a warning without aborting the sweep of the
others, and after a successful stop a `docker rm` is issued whose failure
is likewise only logged; the deploy still returns success. -/
theorem deployServer_decommission_success (cfg : config) (run : Str → RunRes)
    (events : List PollEvent) (timeoutStr service env tag oldTag : Str)
    (pullOut runOut psOut : Str) (ptrace : List Str)
    (hpull : run ("docker pull ".data ++ (cfg.Services service).Image ++
      ":".data ++ tag) = .ok pullOut)
    (hren : tag = oldTag ∧ oldTag ≠ [] → ∃ o, run ("docker rename ".data ++
      (service ++ "-".data ++ oldTag) ++ " ".data ++
      ((service ++ "-".data ++ oldTag) ++ "-old".data)) = .ok o)
    (hrun : run ("docker run ".data ++ shellJoin (buildDockerRunArgs
      cfg.Project service tag oldTag (cfg.Services service)
      ((cfg.Services service).Env env) env)) = .ok runOut)
    (hpoll : pollHealthcheck run events (service ++ "-".data ++ tag)
      (cfg.Services service).Port (cfg.Services service).Healthcheck
      timeoutStr = (ptrace, .ok ()))
    (hps : run ("docker ps --filter \"name=".data ++ service ++
      "-\" --format \"\x7b\x7b.Names\x7d\x7d\"".data) = .ok psOut) :
    (deployServer cfg none run events timeoutStr service env tag oldTag).2.2 =
      .ok () ∧
    ∀ name ∈ parseContainers service psOut,
      name ≠ service ++ "-".data ++ tag →
      stopCmd name ∈
        (deployServer cfg none run events timeoutStr service env tag oldTag).1 ∧
      (∀ e, run (stopCmd name) = .error e →
        warnStop name e ∈
          (deployServer cfg none run events timeoutStr service env tag
            oldTag).2.1) ∧
      (∀ o, run (stopCmd name) = .ok o →
        rmCmd name ∈
          (deployServer cfg none run events timeoutStr service env tag
            oldTag).1 ∧
        (∀ e, run (rmCmd name) = .error e →
          warnRm name e ∈
            (deployServer cfg none run events timeoutStr service env tag
              oldTag).2.1)) := by
  obtain ⟨pre, hdec⟩ := deployServer_decompose cfg run events timeoutStr
    service env tag oldTag pullOut hpull hren
  have hfr := deployFromRun_success run events timeoutStr cfg.Project service
    env tag oldTag (cfg.Services service) ((cfg.Services service).Env env)
    runOut psOut ptrace hrun hpoll hps
  rw [hdec, hfr]
  refine ⟨rfl, fun name hmem hne => ?_⟩
  obtain ⟨m1, m2, m3⟩ := sweepOld_spec run (service ++ "-".data ++ tag)
    (parseContainers service psOut) name hmem hne
  refine ⟨?_, fun e he => m2 e he, fun o ho => ?_⟩
  · exact List.mem_append_right pre (List.mem_cons_of_mem _
      (List.mem_append_right ptrace (List.mem_cons_of_mem _ m1)))
  · obtain ⟨r1, r2⟩ := m3 o ho
    exact ⟨List.mem_append_right pre (List.mem_cons_of_mem _
      (List.mem_append_right ptrace (List.mem_cons_of_mem _ r1))),
      fun e he => r2 e he⟩

end Hoist

namespace Hoist

/-- Remote responses for a successful rollout with two orphaned old
containers: `docker ps` lists the new container, two orphans and the
previous one; stopping `backend-old1` fails; everything else succeeds. -/
def runSweep : Str → RunRes := fun c =>
  if c = stopCmd ("backend-old1".data) then .error ("busy".data)
  else if ("docker ps ".data).isPrefixOf c then
    .ok ("backend-t1\nbackend-old1\nbackend-old2\nbackend-t0\n".data)
  else .ok ("172.17.0.2".data)

/-- Concrete instance of claim C5: all three old containers are swept,
the failing stop is only logged, and the deploy still succeeds. -/
theorem deployServer_decommission_success_witness :
    (deployServer testCfg none runSweep [] ("2m0s".data) ("backend".data)
      ("staging".data) ("t1".data) ("t0".data)).2.2 = .ok () ∧
    stopCmd ("backend-old1".data) ∈
      (deployServer testCfg none runSweep [] ("2m0s".data) ("backend".data)
        ("staging".data) ("t1".data) ("t0".data)).1 ∧
    warnStop ("backend-old1".data) ("busy".data) ∈
      (deployServer testCfg none runSweep [] ("2m0s".data) ("backend".data)
        ("staging".data) ("t1".data) ("t0".data)).2.1 ∧
    stopCmd ("backend-old2".data) ∈
      (deployServer testCfg none runSweep [] ("2m0s".data) ("backend".data)
        ("staging".data) ("t1".data) ("t0".data)).1 ∧
    rmCmd ("backend-old2".data) ∈
      (deployServer testCfg none runSweep [] ("2m0s".data) ("backend".data)
        ("staging".data) ("t1".data) ("t0".data)).1 ∧
    stopCmd ("backend-t0".data) ∈
      (deployServer testCfg none runSweep [] ("2m0s".data) ("backend".data)
        ("staging".data) ("t1".data) ("t0".data)).1 ∧
    rmCmd ("backend-t0".data) ∈
      (deployServer testCfg none runSweep [] ("2m0s".data) ("backend".data)
        ("staging".data) ("t1".data) ("t0".data)).1 := by
  have H := deployServer_decommission_success testCfg runSweep [] ("2m0s".data)
    ("backend".data) ("staging".data) ("t1".data) ("t0".data)
    ("172.17.0.2".data) ("172.17.0.2".data)
    ("backend-t1\nbackend-old1\nbackend-old2\nbackend-t0\n".data)
    [inspectCmd ("backend".data ++ "-".data ++ "t1".data),
      curlCmd ("172.17.0.2".data) 8080 ("/health".data)]
    (by decide) (fun h => absurd h.1 (by decide)) (by decide) (by decide)
    (by decide)
  refine ⟨H.1, (H.2 ("backend-old1".data) (by decide) (by decide)).1,
    (H.2 ("backend-old1".data) (by decide) (by decide)).2.1 ("busy".data)
      (by decide),
    (H.2 ("backend-old2".data) (by decide) (by decide)).1,
    ((H.2 ("backend-old2".data) (by decide) (by decide)).2.2
      ("172.17.0.2".data) (by decide)).1,
    (H.2 ("backend-t0".data) (by decide) (by decide)).1,
    ((H.2 ("backend-t0".data) (by decide) (by decide)).2.2
      ("172.17.0.2".data) (by decide)).1⟩

end Hoist

namespace Hoist

/-! ## Build catalog merge (`cmd_builds.go`, `mergedBuildsProvider`)

The concurrent per-provider fetches write into an indexed results slice;
the model takes that results list (one `Except` per provider) as input.
Go map iteration order is unspecified; the model linearizes both maps
(`counts`, `byTag`) as association lists in first-insertion order, which
fixes one admissible interleaving. -/

structure build where
  Tag : Str
  Branch : Str
  SHA : Str
  Time : Int
  Message : Str
  Author : Str
deriving DecidableEq, Repr

def dummyBuild : build := ⟨[], [], [], 0, [], []⟩

/-- Association-list read, modelling a Go map read. -/
def lookupKV {β : Type} (m : List (Str × β)) (t : Str) : Option (Str × β) :=
  m.find? (fun kv => decide (kv.1 = t))

/-- `counts[tag]++` on the insertion-ordered association list. -/
def bumpCount : List (Str × Nat) → Str → List (Str × Nat)
  | [], t => [(t, 1)]
  | (k, n) :: rest, t =>
    if k = t then (k, n + 1) :: rest else (k, n) :: bumpCount rest t

/-- `byTag[b.Tag] = b` on the insertion-ordered association list. -/
def setTag : List (Str × build) → build → List (Str × build)
  | [], b => [(b.Tag, b)]
  | (k, v) :: rest, b =>
    if k = b.Tag then (k, b) :: rest else (k, v) :: setTag rest b

/-- One provider page of the counting loop. -/
def tallyPage (st : List (Str × Nat) × List (Str × build)) (p : List build) :
    List (Str × Nat) × List (Str × build) :=
  p.foldl (fun st b => (bumpCount st.1 b.Tag, setTag st.2 b)) st

/-- The whole counting loop over all providers' pages. -/
def tallyAll (pages : List (List build)) :
    List (Str × Nat) × List (Str × build) :=
  pages.foldl tallyPage ([], [])

/-- The `all` slice: keep only builds whose tag was counted in `n`
providers (`count == len(m.providers)`). -/
def intersectN (pages : List (List build)) (n : Nat) : List build :=
  ((tallyAll pages).1.filter (fun kv => decide (kv.2 = n))).map
    (fun kv => (((lookupKV (tallyAll pages).2 kv.1).map (fun kv2 => kv2.2)).getD
      dummyBuild))

/-- The first provider error, as the source's early-return loop finds it. -/
def firstErr : List (Except Str (List build)) → Option Str
  | [] => none
  | .error e :: _ => some e
  | .ok _ :: rest => firstErr rest

/-- The successful pages of the results slice. -/
def okPages (results : List (Except Str (List build))) : List (List build) :=
  results.filterMap (fun r => match r with | .ok p => some p | .error _ => none)

/-- `sort.Slice(all, func(i,j) { return all[i].Time.After(all[j].Time) })`:
the comparator that puts later builds first. -/
def buildLe (a b : build) : Bool := decide (b.Time ≤ a.Time)

/-- `mergedBuildsProvider.listBuilds` from `cmd_builds.go`: propagate the
first provider error; otherwise count tags across all pages, keep those
present `len(providers)` times, sort by descending time, and serve
`limit`/`offset` pagination over the sorted sequence. -/
def mergedListBuilds (results : List (Except Str (List build)))
    (limit offset : Nat) : Except Str (List build) :=
  match firstErr results with
  | some e => .error e
  | none =>
    let all := intersectN (okPages results) results.length
    let sorted := all.mergeSort buildLe
    if offset ≥ sorted.length then .ok []
    else
      let l2 := sorted.drop offset
      .ok (if limit < l2.length then l2.take limit else l2)

theorem firstErr_map_ok (pages : List (List build)) :
    firstErr (pages.map .ok) = none := by
  induction pages with
  | nil => rfl
  | cons p ps ih => simpa [firstErr] using ih

theorem okPages_map_ok (pages : List (List build)) :
    okPages (pages.map .ok) = pages := by
  induction pages with
  | nil => rfl
  | cons p ps ih => simpa [okPages] using ih

/-- The Go pagination conditionals compute `take limit (drop offset _)`. -/
theorem paginate_eq (l : List build) (limit offset : Nat) :
    (if offset ≥ l.length then ([] : List build)
      else if limit < (l.drop offset).length then (l.drop offset).take limit
      else l.drop offset) = (l.drop offset).take limit := by
  by_cases h : offset ≥ l.length
  · rw [if_pos h]
    rw [List.drop_eq_nil_of_le h, List.take_nil]
  · rw [if_neg h]
    by_cases h2 : limit < (l.drop offset).length
    · rw [if_pos h2]
    · rw [if_neg h2, List.take_of_length_le (by omega)]

end Hoist

namespace Hoist

/-- The count a Go map read observes (`counts[t]`, defaulting to zero). -/
def countVal (m : List (Str × Nat)) (t : Str) : Nat :=
  ((lookupKV m t).map (fun kv => kv.2)).getD 0

/-- How many builds of one provider page carry tag `t`. -/
def pageOcc (p : List build) (t : Str) : Nat :=
  (p.filter (fun b => decide (b.Tag = t))).length

/-- Total occurrences of tag `t` across all pages. -/
def totalOcc (pages : List (List build)) (t : Str) : Nat :=
  (pages.map (fun p => pageOcc p t)).sum

/-- The key column of an association list. -/
def kvKeys {β : Type} (m : List (Str × β)) : List Str :=
  m.map (fun kv => kv.1)

theorem kvKeys_cons {β : Type} (k : Str) (v : β) (rest : List (Str × β)) :
    kvKeys ((k, v) :: rest) = k :: kvKeys rest := rfl

theorem countVal_nil (t : Str) : countVal [] t = 0 := rfl

theorem countVal_cons (k : Str) (n : Nat) (rest : List (Str × Nat)) (t : Str) :
    countVal ((k, n) :: rest) t = if k = t then n else countVal rest t := by
  by_cases h : k = t <;> simp [countVal, lookupKV, List.find?, h]

theorem countVal_bump (m : List (Str × Nat)) (u t : Str) :
    countVal (bumpCount m u) t = countVal m t + (if t = u then 1 else 0) := by
  induction m with
  | nil =>
    by_cases h : t = u
    · subst h
      simp [bumpCount, countVal_cons, countVal_nil]
    · have h2 : ¬u = t := fun he => h he.symm
      simp [bumpCount, countVal_cons, countVal_nil, h, h2]
  | cons kv rest ih =>
    obtain ⟨k, n⟩ := kv
    by_cases hku : k = u
    · have hb : bumpCount ((k, n) :: rest) u = (k, n + 1) :: rest := by
        simp only [bumpCount, if_pos hku]
      rw [hb, countVal_cons, countVal_cons]
      by_cases hkt : k = t
      · have ht : t = u := by rw [← hkt, hku]
        rw [if_pos hkt, if_pos hkt, if_pos ht]
      · have ht : ¬t = u := fun he => hkt (by rw [hku, ← he])
        rw [if_neg hkt, if_neg hkt, if_neg ht]
        omega
    · have hb : bumpCount ((k, n) :: rest) u = (k, n) :: bumpCount rest u := by
        simp only [bumpCount, if_neg hku]
      rw [hb, countVal_cons, countVal_cons, ih]
      by_cases hkt : k = t
      · have ht : ¬t = u := fun he => hku (hkt.trans he)
        rw [if_pos hkt, if_pos hkt, if_neg ht]
        omega
      · rw [if_neg hkt, if_neg hkt]

theorem kvKeys_bump (m : List (Str × Nat)) (u : Str) :
    kvKeys (bumpCount m u) =
      if u ∈ kvKeys m then kvKeys m else kvKeys m ++ [u] := by
  induction m with
  | nil => simp [bumpCount, kvKeys]
  | cons kv rest ih =>
    obtain ⟨k, n⟩ := kv
    by_cases hku : k = u
    · subst hku
      have hm : k ∈ kvKeys ((k, n) :: rest) := by
        rw [kvKeys_cons]
        exact List.mem_cons_self _ _
      rw [if_pos hm]
      have hb : bumpCount ((k, n) :: rest) k = (k, n + 1) :: rest := by
        simp [bumpCount]
      rw [hb, kvKeys_cons, kvKeys_cons]
    · have hcons : kvKeys (bumpCount ((k, n) :: rest) u)
          = k :: kvKeys (bumpCount rest u) := by
        have hb : bumpCount ((k, n) :: rest) u = (k, n) :: bumpCount rest u := by
          simp only [bumpCount, if_neg hku]
        rw [hb, kvKeys_cons]
      rw [hcons, ih]
      by_cases hm : u ∈ kvKeys rest
      · have hm2 : u ∈ kvKeys ((k, n) :: rest) := by
          rw [kvKeys_cons]
          exact List.mem_cons_of_mem _ hm
        rw [if_pos hm, if_pos hm2, kvKeys_cons]
      · have hm2 : u ∉ kvKeys ((k, n) :: rest) := by
          rw [kvKeys_cons]
          intro hc
          rcases List.mem_cons.mp hc with h | h
          · exact hku h.symm
          · exact hm h
        rw [if_neg hm, if_neg hm2, kvKeys_cons, List.cons_append]

theorem kvKeys_set (m : List (Str × build)) (b : build) :
    kvKeys (setTag m b) =
      if b.Tag ∈ kvKeys m then kvKeys m else kvKeys m ++ [b.Tag] := by
  induction m with
  | nil => simp [setTag, kvKeys]
  | cons kv rest ih =>
    obtain ⟨k, v⟩ := kv
    by_cases hku : k = b.Tag
    · have hm : b.Tag ∈ kvKeys ((k, v) :: rest) := by
        rw [kvKeys_cons, ← hku]
        exact List.mem_cons_self _ _
      rw [if_pos hm]
      have hb : setTag ((k, v) :: rest) b = (k, b) :: rest := by
        simp only [setTag, if_pos hku]
      rw [hb, kvKeys_cons, kvKeys_cons]
    · have hcons : kvKeys (setTag ((k, v) :: rest) b)
          = k :: kvKeys (setTag rest b) := by
        have hb : setTag ((k, v) :: rest) b = (k, v) :: setTag rest b := by
          simp only [setTag, if_neg hku]
        rw [hb, kvKeys_cons]
      rw [hcons, ih]
      by_cases hm : b.Tag ∈ kvKeys rest
      · have hm2 : b.Tag ∈ kvKeys ((k, v) :: rest) := by
          rw [kvKeys_cons]
          exact List.mem_cons_of_mem _ hm
        rw [if_pos hm, if_pos hm2, kvKeys_cons]
      · have hm2 : b.Tag ∉ kvKeys ((k, v) :: rest) := by
          rw [kvKeys_cons]
          intro hc
          rcases List.mem_cons.mp hc with h | h
          · exact hku h.symm
          · exact hm h
        rw [if_neg hm, if_neg hm2, kvKeys_cons, List.cons_append]

theorem nodup_concat_of_not_mem {l : List Str} {u : Str}
    (h : l.Nodup) (hm : u ∉ l) : (l ++ [u]).Nodup := by
  refine List.Nodup.append h (List.nodup_singleton u) ?_
  intro a ha hb
  rw [List.mem_singleton] at hb
  exact hm (hb ▸ ha)

theorem kvKeys_bump_nodup (m : List (Str × Nat)) (u : Str)
    (h : (kvKeys m).Nodup) : (kvKeys (bumpCount m u)).Nodup := by
  rw [kvKeys_bump]
  by_cases hm : u ∈ kvKeys m
  · rw [if_pos hm]
    exact h
  · rw [if_neg hm]
    exact nodup_concat_of_not_mem h hm

theorem bump_pos (m : List (Str × Nat)) (u : Str) :
    (∀ kv ∈ m, 1 ≤ kv.2) → ∀ kv ∈ bumpCount m u, 1 ≤ kv.2 := by
  induction m with
  | nil =>
    intro _ kv hkv
    simp only [bumpCount] at hkv
    rcases List.mem_singleton.mp hkv with rfl
    exact Nat.le_refl 1
  | cons kv0 rest ih =>
    obtain ⟨k, n⟩ := kv0
    intro h kv hkv
    simp only [bumpCount] at hkv
    by_cases hku : k = u
    · rw [if_pos hku] at hkv
      rcases List.mem_cons.mp hkv with rfl | hr
      · exact Nat.le_add_left 1 n
      · exact h kv (List.mem_cons_of_mem _ hr)
    · rw [if_neg hku] at hkv
      rcases List.mem_cons.mp hkv with rfl | hr
      · exact h (k, n) (List.mem_cons_self _ _)
      · exact ih (fun kv2 hkv2 => h kv2 (List.mem_cons_of_mem _ hkv2)) kv hr

theorem setTag_inv (m : List (Str × build)) (b : build) :
    (∀ kv ∈ m, kv.2.Tag = kv.1) → ∀ kv ∈ setTag m b, kv.2.Tag = kv.1 := by
  induction m with
  | nil =>
    intro _ kv hkv
    simp only [setTag] at hkv
    rcases List.mem_singleton.mp hkv with rfl
    rfl
  | cons kv0 rest ih =>
    obtain ⟨k, v⟩ := kv0
    intro h kv hkv
    simp only [setTag] at hkv
    by_cases hku : k = b.Tag
    · rw [if_pos hku] at hkv
      rcases List.mem_cons.mp hkv with rfl | hr
      · exact hku.symm
      · exact h kv (List.mem_cons_of_mem _ hr)
    · rw [if_neg hku] at hkv
      rcases List.mem_cons.mp hkv with rfl | hr
      · exact h (k, v) (List.mem_cons_self _ _)
      · exact ih (fun kv2 hkv2 => h kv2 (List.mem_cons_of_mem _ hkv2)) kv hr

end Hoist

namespace Hoist

/-- The invariant the counting loop maintains on its `(counts, byTag)` state:
count keys are distinct, entries were bumped at least once, every `byTag`
entry is stored under its own tag, and every counted tag has a build. -/
def stInv (st : List (Str × Nat) × List (Str × build)) : Prop :=
  (kvKeys st.1).Nodup ∧ (∀ kv ∈ st.1, 1 ≤ kv.2) ∧
    (∀ kv ∈ st.2, kv.2.Tag = kv.1) ∧
    (∀ t, (lookupKV st.1 t).isSome = true → (lookupKV st.2 t).isSome = true)

theorem lookupKV_isSome_keys {β : Type} (m : List (Str × β)) (t : Str) :
    (lookupKV m t).isSome = true ↔ t ∈ kvKeys m := by
  rw [lookupKV, List.find?_isSome]
  constructor
  · rintro ⟨kv, hm, hp⟩
    have he : kv.1 = t := of_decide_eq_true hp
    rw [← he]
    exact List.mem_map.mpr ⟨kv, hm, rfl⟩
  · intro hm
    rcases List.mem_map.mp hm with ⟨kv, hkv, he⟩
    exact ⟨kv, hkv, decide_eq_true he⟩

theorem lookupKV_bump_isSome (m : List (Str × Nat)) (u t : Str) :
    (lookupKV (bumpCount m u) t).isSome = true ↔
      ((lookupKV m t).isSome = true ∨ t = u) := by
  rw [lookupKV_isSome_keys, lookupKV_isSome_keys, kvKeys_bump]
  by_cases hm : u ∈ kvKeys m
  · rw [if_pos hm]
    constructor
    · exact Or.inl
    · rintro (h | h)
      · exact h
      · exact h ▸ hm
  · rw [if_neg hm, List.mem_append, List.mem_singleton]

theorem lookupKV_set_isSome (m : List (Str × build)) (b : build) (t : Str) :
    (lookupKV (setTag m b) t).isSome = true ↔
      ((lookupKV m t).isSome = true ∨ t = b.Tag) := by
  rw [lookupKV_isSome_keys, lookupKV_isSome_keys, kvKeys_set]
  by_cases hm : b.Tag ∈ kvKeys m
  · rw [if_pos hm]
    constructor
    · exact Or.inl
    · rintro (h | h)
      · exact h
      · exact h ▸ hm
  · rw [if_neg hm, List.mem_append, List.mem_singleton]

theorem stInv_step (st : List (Str × Nat) × List (Str × build)) (b : build)
    (h : stInv st) : stInv (bumpCount st.1 b.Tag, setTag st.2 b) := by
  obtain ⟨h1, h2, h3, h4⟩ := h
  refine ⟨kvKeys_bump_nodup _ _ h1, bump_pos _ _ h2, setTag_inv _ _ h3, ?_⟩
  intro t ht
  rw [lookupKV_bump_isSome] at ht
  rw [lookupKV_set_isSome]
  rcases ht with ht | ht
  · exact Or.inl (h4 t ht)
  · exact Or.inr ht

theorem stInv_page (p : List build) :
    ∀ st, stInv st → stInv (tallyPage st p) := by
  induction p with
  | nil => intro st h; exact h
  | cons b rest ih =>
    intro st h
    exact ih _ (stInv_step st b h)

theorem stInv_all (pages : List (List build)) : stInv (tallyAll pages) := by
  have hfold : ∀ st, stInv st → stInv (pages.foldl tallyPage st) := by
    induction pages with
    | nil => intro st h; exact h
    | cons p rest ih =>
      intro st h
      exact ih _ (stInv_page p st h)
  refine hfold ([], []) ⟨List.nodup_nil, ?_, ?_, ?_⟩
  · intro kv hkv
    exact absurd hkv (List.not_mem_nil kv)
  · intro kv hkv
    exact absurd hkv (List.not_mem_nil kv)
  · intro t ht
    simp [lookupKV, List.find?] at ht

theorem pageOcc_cons (b : build) (rest : List build) (t : Str) :
    pageOcc (b :: rest) t = (if b.Tag = t then 1 else 0) + pageOcc rest t := by
  by_cases h : b.Tag = t <;>
    simp [pageOcc, List.filter_cons, h] <;> omega

theorem countVal_tallyPage (p : List build) (t : Str) :
    ∀ st : List (Str × Nat) × List (Str × build),
      countVal (tallyPage st p).1 t = countVal st.1 t + pageOcc p t := by
  induction p with
  | nil =>
    intro st
    simp [tallyPage, pageOcc]
  | cons b rest ih =>
    intro st
    have h1 : (tallyPage st (b :: rest)).1
        = (tallyPage (bumpCount st.1 b.Tag, setTag st.2 b) rest).1 := rfl
    rw [h1, ih, countVal_bump, pageOcc_cons]
    by_cases h : b.Tag = t
    · have h2 : t = b.Tag := h.symm
      rw [if_pos h, if_pos h2]
      omega
    · have h2 : ¬t = b.Tag := fun he => h he.symm
      rw [if_neg h, if_neg h2]
      omega

theorem countVal_tallyAll (pages : List (List build)) (t : Str) :
    countVal (tallyAll pages).1 t = totalOcc pages t := by
  have haux : ∀ st, countVal (pages.foldl tallyPage st).1 t
      = countVal st.1 t + totalOcc pages t := by
    induction pages with
    | nil =>
      intro st
      simp [totalOcc]
    | cons p rest ih =>
      intro st
      have h1 : (p :: rest).foldl tallyPage st = rest.foldl tallyPage (tallyPage st p) := rfl
      rw [h1, ih, countVal_tallyPage]
      have h2 : totalOcc (p :: rest) t = pageOcc p t + totalOcc rest t := by
        simp [totalOcc]
      rw [h2]
      omega
  have h := haux ([], [])
  rw [countVal_nil] at h
  rw [tallyAll, h]
  omega

end Hoist

namespace Hoist

theorem pageOcc_pos_iff (p : List build) (t : Str) :
    1 ≤ pageOcc p t ↔ ∃ b ∈ p, b.Tag = t := by
  constructor
  · intro h
    have hne : p.filter (fun b => decide (b.Tag = t)) ≠ [] := by
      intro hc
      unfold pageOcc at h
      rw [hc] at h
      exact absurd h (by decide)
    rcases List.exists_mem_of_ne_nil _ hne with ⟨b, hb⟩
    have hb2 := List.mem_filter.mp hb
    exact ⟨b, hb2.1, of_decide_eq_true hb2.2⟩
  · rintro ⟨b, hb, he⟩
    have hmem : b ∈ p.filter (fun b => decide (b.Tag = t)) :=
      List.mem_filter.mpr ⟨hb, decide_eq_true he⟩
    have h2 := List.length_pos_of_mem hmem
    unfold pageOcc
    omega

theorem pageOcc_le_one (p : List build) (t : Str)
    (h : (p.map build.Tag).Nodup) : pageOcc p t ≤ 1 := by
  induction p with
  | nil => simp [pageOcc]
  | cons b rest ih =>
    rw [List.map_cons, List.nodup_cons] at h
    rw [pageOcc_cons]
    by_cases he : b.Tag = t
    · have hz : pageOcc rest t = 0 := by
        by_contra hc
        rcases (pageOcc_pos_iff rest t).mp (by omega) with ⟨b2, hb2, he2⟩
        have hmem : b.Tag ∈ rest.map build.Tag := by
          rw [he, ← he2]
          exact List.mem_map.mpr ⟨b2, hb2, rfl⟩
        exact h.1 hmem
      rw [if_pos he, hz]
    · rw [if_neg he]
      have h2 := ih h.2
      omega

theorem totalOcc_le (pages : List (List build)) (t : Str)
    (h : ∀ p ∈ pages, (p.map build.Tag).Nodup) :
    totalOcc pages t ≤ pages.length := by
  induction pages with
  | nil => simp [totalOcc]
  | cons p rest ih =>
    have h1 : pageOcc p t ≤ 1 := pageOcc_le_one p t (h p (List.mem_cons_self p rest))
    have h2 := ih (fun q hq => h q (List.mem_cons_of_mem p hq))
    have h3 : totalOcc (p :: rest) t = pageOcc p t + totalOcc rest t := by
      simp [totalOcc]
    rw [h3, List.length_cons]
    omega

theorem totalOcc_eq_iff (pages : List (List build)) (t : Str)
    (h : ∀ p ∈ pages, (p.map build.Tag).Nodup) :
    totalOcc pages t = pages.length ↔ ∀ p ∈ pages, ∃ b ∈ p, b.Tag = t := by
  induction pages with
  | nil => simp [totalOcc]
  | cons p rest ih =>
    have h1 : pageOcc p t ≤ 1 := pageOcc_le_one p t (h p (List.mem_cons_self p rest))
    have h2 := totalOcc_le rest t (fun q hq => h q (List.mem_cons_of_mem p hq))
    have h3 : totalOcc (p :: rest) t = pageOcc p t + totalOcc rest t := by
      simp [totalOcc]
    have ih2 := ih (fun q hq => h q (List.mem_cons_of_mem p hq))
    rw [h3, List.length_cons]
    constructor
    · intro he
      have hp1 : pageOcc p t = 1 := by omega
      have hr : totalOcc rest t = rest.length := by omega
      intro q hq
      rcases List.mem_cons.mp hq with rfl | hq2
      · exact (pageOcc_pos_iff q t).mp (by omega)
      · exact (ih2.mp hr) q hq2
    · intro hall
      have hp1 : 1 ≤ pageOcc p t :=
        (pageOcc_pos_iff p t).mpr (hall p (List.mem_cons_self p rest))
      have hr : totalOcc rest t = rest.length :=
        ih2.mpr (fun q hq => hall q (List.mem_cons_of_mem p hq))
      omega

theorem lookupKV_mem {β : Type} (m : List (Str × β)) (kv : Str × β)
    (hnd : (kvKeys m).Nodup) (hm : kv ∈ m) : lookupKV m kv.1 = some kv := by
  induction m with
  | nil => cases hm
  | cons kv0 rest ih =>
    obtain ⟨k, v⟩ := kv0
    rw [kvKeys_cons, List.nodup_cons] at hnd
    rcases List.mem_cons.mp hm with rfl | hm2
    · simp [lookupKV, List.find?]
    · have hk : ¬k = kv.1 := by
        intro he
        apply hnd.1
        rw [he]
        exact List.mem_map.mpr ⟨kv, hm2, rfl⟩
      have hskip : lookupKV ((k, v) :: rest) kv.1 = lookupKV rest kv.1 := by
        simp [lookupKV, List.find?, hk]
      rw [hskip]
      exact ih hnd.2 hm2

theorem lookupKV_fact {β : Type} (m : List (Str × β)) (t : Str) (kv : Str × β)
    (h : lookupKV m t = some kv) : kv ∈ m ∧ kv.1 = t := by
  refine ⟨List.mem_of_find?_eq_some h, ?_⟩
  have h2 := List.find?_some h
  exact of_decide_eq_true h2

theorem countVal_eq_of_lookup (m : List (Str × Nat)) (t : Str) (kv : Str × Nat)
    (h : lookupKV m t = some kv) : countVal m t = kv.2 := by
  unfold countVal
  rw [h]
  rfl

theorem lookupKV_isSome_of_countVal (m : List (Str × Nat)) (t : Str)
    (h : 1 ≤ countVal m t) : (lookupKV m t).isSome = true := by
  cases hl : lookupKV m t with
  | none =>
    unfold countVal at h
    rw [hl] at h
    simp at h
  | some kv => rfl

theorem byTag_lookup (st : List (Str × Nat) × List (Str × build)) (t : Str)
    (hinv : stInv st) (hpos : (lookupKV st.1 t).isSome = true) :
    ∃ kv2, lookupKV st.2 t = some kv2 ∧ kv2.2.Tag = t := by
  have h2 := hinv.2.2.2 t hpos
  rcases Option.isSome_iff_exists.mp h2 with ⟨kv2, hkv2⟩
  refine ⟨kv2, hkv2, ?_⟩
  have h3 := lookupKV_fact st.2 t kv2 hkv2
  rw [hinv.2.2.1 kv2 h3.1]
  exact h3.2

end Hoist

namespace Hoist

theorem intersectN_mem (pages : List (List build)) (t : Str)
    (hne : pages ≠ [])
    (hnd : ∀ p ∈ pages, (p.map build.Tag).Nodup) :
    (∃ b ∈ intersectN pages pages.length, b.Tag = t) ↔
      ∀ p ∈ pages, ∃ b ∈ p, b.Tag = t := by
  have hinv := stInv_all pages
  constructor
  · rintro ⟨b, hb, hbt⟩
    unfold intersectN at hb
    rcases List.mem_map.mp hb with ⟨kv, hkvf, hbe⟩
    have hf := List.mem_filter.mp hkvf
    have hcnt : kv.2 = pages.length := of_decide_eq_true hf.2
    have hlk : lookupKV (tallyAll pages).1 kv.1 = some kv :=
      lookupKV_mem _ kv hinv.1 hf.1
    have hcv : countVal (tallyAll pages).1 kv.1 = pages.length := by
      rw [countVal_eq_of_lookup _ _ kv hlk, hcnt]
    have hsome : (lookupKV (tallyAll pages).1 kv.1).isSome = true := by
      rw [hlk]
      rfl
    rcases byTag_lookup (tallyAll pages) kv.1 hinv hsome with ⟨kv2, hkv2, htag⟩
    have hb2 : b = kv2.2 := by
      rw [← hbe, hkv2]
      rfl
    have ht2 : t = kv.1 := by rw [← hbt, hb2, htag]
    rw [ht2]
    rw [countVal_tallyAll] at hcv
    exact (totalOcc_eq_iff pages kv.1 hnd).mp hcv
  · intro hall
    have htot : totalOcc pages t = pages.length :=
      (totalOcc_eq_iff pages t hnd).mpr hall
    have hcv : countVal (tallyAll pages).1 t = pages.length := by
      rw [countVal_tallyAll]
      exact htot
    have hpos : 1 ≤ countVal (tallyAll pages).1 t := by
      rw [hcv]
      have hlen : pages.length ≠ 0 := fun hc => hne (List.length_eq_zero.mp hc)
      omega
    have hsome := lookupKV_isSome_of_countVal _ t hpos
    rcases Option.isSome_iff_exists.mp hsome with ⟨kv, hkv⟩
    have hfact := lookupKV_fact _ t kv hkv
    have hkv2v : kv.2 = pages.length := by
      rw [← hcv]
      exact (countVal_eq_of_lookup _ t kv hkv).symm
    have hfil : kv ∈ (tallyAll pages).1.filter (fun kv => decide (kv.2 = pages.length)) :=
      List.mem_filter.mpr ⟨hfact.1, decide_eq_true hkv2v⟩
    rcases byTag_lookup (tallyAll pages) t hinv hsome with ⟨kv2, hkvt, htag⟩
    refine ⟨kv2.2, ?_, htag⟩
    unfold intersectN
    apply List.mem_map.mpr
    refine ⟨kv, hfil, ?_⟩
    rw [hfact.2, hkvt]
    rfl

theorem buildLe_trans (a b c : build) (hab : buildLe a b = true)
    (hbc : buildLe b c = true) : buildLe a c = true := by
  unfold buildLe at *
  have h1 := of_decide_eq_true hab
  have h2 := of_decide_eq_true hbc
  exact decide_eq_true (le_trans h2 h1)

theorem buildLe_total (a b : build) : (buildLe a b || buildLe b a) = true := by
  rcases le_total a.Time b.Time with h | h <;> simp [buildLe, h]

theorem mergeSort_sorted_time (l : List build) :
    (l.mergeSort buildLe).Pairwise (fun a b => b.Time ≤ a.Time) := by
  have h := List.sorted_mergeSort buildLe_trans buildLe_total l
  exact h.imp (fun hab => by
    unfold buildLe at hab
    exact of_decide_eq_true hab)

theorem mergedListBuilds_ok (pages : List (List build)) (limit offset : Nat) :
    mergedListBuilds (pages.map Except.ok) limit offset =
      Except.ok ((((intersectN pages pages.length).mergeSort buildLe).drop
        offset).take limit) := by
  unfold mergedListBuilds
  rw [firstErr_map_ok]
  simp only [okPages_map_ok, List.length_map]
  by_cases h1 : offset ≥ ((intersectN pages pages.length).mergeSort buildLe).length
  · rw [if_pos h1]
    rw [List.drop_eq_nil_of_le h1, List.take_nil]
  · rw [if_neg h1]
    by_cases h2 : limit <
        (((intersectN pages pages.length).mergeSort buildLe).drop offset).length
    · rw [if_pos h2]
    · rw [if_neg h2, List.take_of_length_le (by omega)]

end Hoist

namespace Hoist

/-- Two fixed builds: `cxA` tagged `x`, `cxB` tagged `y`. -/
def cxA : build := ⟨"x".data, [], [], 5, [], []⟩

def cxB : build := ⟨"y".data, [], [], 3, [], []⟩

/-- C6 counterexample: provider one returns tag `x` twice (duplicate tags in
one page), provider two never returns tag `x`; `counts[x]` still reaches
`len(providers) = 2`, so the merged catalog serves the build for `x` even
though that tag is missing from provider two's result - the claim says such
a tag is never returned. -/
theorem mergedListBuilds_counterexample :
    mergedListBuilds [Except.ok [cxA, cxA], Except.ok [cxB]] 10 0
        = Except.ok [cxA] ∧
      ∀ b ∈ [cxB], ¬b.Tag = cxA.Tag := by
  constructor
  · have h := mergedListBuilds_ok [[cxA, cxA], [cxB]] 10 0
    have h2 : intersectN [[cxA, cxA], [cxB]] [[cxA, cxA], [cxB]].length
        = [cxA] := by decide
    rw [h2, List.mergeSort_singleton] at h
    exact h
  · decide

/-- C6 (corrected): when the tags inside each provider page are pairwise
distinct (the hypothesis the per-occurrence counting scheme needs),
`listBuilds` over error-free providers returns the intersected builds
sorted by descending time, serving `limit`/`offset` pagination over that
sorted sequence, and a tag is served iff it occurs in every provider's
page. Without the distinct-tags hypothesis duplicate occurrences in one
page make the count reach `len(providers)` spuriously. -/
theorem mergedListBuilds_intersection (pages : List (List build))
    (limit offset : Nat) (t : Str)
    (hne : pages ≠ [])
    (hnd : ∀ p ∈ pages, (p.map build.Tag).Nodup) :
    mergedListBuilds (pages.map Except.ok) limit offset =
        Except.ok ((((intersectN pages pages.length).mergeSort buildLe).drop
          offset).take limit) ∧
      ((intersectN pages pages.length).mergeSort buildLe).Pairwise
        (fun a b => b.Time ≤ a.Time) ∧
      ((∃ b ∈ (intersectN pages pages.length).mergeSort buildLe, b.Tag = t) ↔
        ∀ p ∈ pages, ∃ b ∈ p, b.Tag = t) := by
  refine ⟨mergedListBuilds_ok pages limit offset, mergeSort_sorted_time _, ?_⟩
  rw [← intersectN_mem pages t hne hnd]
  constructor
  · rintro ⟨b, hb, he⟩
    exact ⟨b, List.mem_mergeSort.mp hb, he⟩
  · rintro ⟨b, hb, he⟩
    exact ⟨b, List.mem_mergeSort.mpr hb, he⟩

/-- The spec's own example pages: provider one has tags `x, y, z`,
provider two has `y, z, w`. -/
def wX : build := ⟨"x".data, [], [], 9, [], []⟩

def wY : build := ⟨"y".data, [], [], 7, [], []⟩

def wZ : build := ⟨"z".data, [], [], 8, [], []⟩

def wW : build := ⟨"w".data, [], [], 5, [], []⟩

/-- Witness for the corrected C6 theorem at the spec's example
(`A = \x7bx,y,z\x7d`, `B = \x7by,z,w\x7d`, querying tag `y`). -/
theorem mergedListBuilds_intersection_witness :
    (([[wX, wY, wZ], [wY, wZ, wW]] : List (List build)) ≠ [] ∧
      ∀ p ∈ ([[wX, wY, wZ], [wY, wZ, wW]] : List (List build)),
        (p.map build.Tag).Nodup) ∧
      (mergedListBuilds ([[wX, wY, wZ], [wY, wZ, wW]].map Except.ok) 5 0 =
          Except.ok ((((intersectN [[wX, wY, wZ], [wY, wZ, wW]]
            [[wX, wY, wZ], [wY, wZ, wW]].length).mergeSort buildLe).drop
              0).take 5) ∧
        ((intersectN [[wX, wY, wZ], [wY, wZ, wW]]
          [[wX, wY, wZ], [wY, wZ, wW]].length).mergeSort buildLe).Pairwise
          (fun a b => b.Time ≤ a.Time) ∧
        ((∃ b ∈ (intersectN [[wX, wY, wZ], [wY, wZ, wW]]
            [[wX, wY, wZ], [wY, wZ, wW]].length).mergeSort buildLe,
            b.Tag = "y".data) ↔
          ∀ p ∈ ([[wX, wY, wZ], [wY, wZ, wW]] : List (List build)),
            ∃ b ∈ p, b.Tag = "y".data)) :=
  ⟨⟨by decide, by decide⟩,
    mergedListBuilds_intersection [[wX, wY, wZ], [wY, wZ, wW]] 5 0 ("y".data)
      (by decide) (by decide)⟩

end Hoist

namespace Hoist

/-! ## Parallel deploy and rollback (`cmd_builds.go`, `deployAll`,
`deployAllWithUI`)

`deployAll` starts one goroutine per service; each calls
`deployService(svc, env, tags[svc], previousTags[svc])` and sends
`(service, err)` on a buffered channel, and the collector keeps the
services whose entry carries an error. The per-service deploy outcome is
an oracle `dep service tag oldTag` (`some cause` = error), and the
channel contents are linearized in `services` order (the claims below
are order-insensitive). -/

/-- The results-channel contents of one `deployAll` call. -/
def deployAllRuns (dep : Str → Str → Str → Option Str)
    (services : List Str) (tags prevTags : Str → Str) :
    List (Str × Option Str) :=
  services.map (fun svc => (svc, dep svc (tags svc) (prevTags svc)))

/-- The `failed` slice `deployAll` returns. -/
def deployAllFailed (dep : Str → Str → Str → Option Str)
    (services : List Str) (tags prevTags : Str → Str) : List Str :=
  ((deployAllRuns dep services tags prevTags).filter
    (fun r => r.2.isSome)).map (fun r => r.1)

theorem deployAllRuns_fst (dep : Str → Str → Str → Option Str)
    (services : List Str) (tags prevTags : Str → Str) :
    (deployAllRuns dep services tags prevTags).map (fun r => r.1) = services := by
  induction services with
  | nil => rfl
  | cons s rest ih =>
    simp only [deployAllRuns, List.map_cons] at *
    rw [ih]

theorem deployAllRuns_causes (dep : Str → Str → Str → Option Str)
    (services : List Str) (tags prevTags : Str → Str) :
    ∀ r ∈ deployAllRuns dep services tags prevTags,
      r.2 = dep r.1 (tags r.1) (prevTags r.1) := by
  intro r hr
  rcases List.mem_map.mp hr with ⟨svc, hsvc, hre⟩
  rw [← hre]

theorem deployAllFailed_mem (dep : Str → Str → Str → Option Str)
    (services : List Str) (tags prevTags : Str → Str) (s : Str) :
    s ∈ deployAllFailed dep services tags prevTags ↔
      (s ∈ services ∧ (dep s (tags s) (prevTags s)).isSome = true) := by
  unfold deployAllFailed deployAllRuns
  constructor
  · intro hs
    rcases List.mem_map.mp hs with ⟨r, hr, hfst⟩
    have hr2 := List.mem_filter.mp hr
    rcases List.mem_map.mp hr2.1 with ⟨svc, hsvc, hre⟩
    have h2 := hr2.2
    rw [← hre] at hfst h2
    rw [← hfst]
    exact ⟨hsvc, h2⟩
  · rintro ⟨hs, herr⟩
    refine List.mem_map.mpr ⟨(s, dep s (tags s) (prevTags s)), ?_, rfl⟩
    refine List.mem_filter.mpr ⟨List.mem_map.mpr ⟨s, hs, rfl⟩, ?_⟩
    exact herr

end Hoist

namespace Hoist

/-! The rollback tail of `deployAllWithUI`: the selection loop puts each
rollback service with a present, non-empty previous tag into the
`rollbackTags` map and prints `skipping <svc>: no previous deploy` for the
rest; the target list is the map's key set (modelled in insertion order),
and the re-deploy call is `deployAll(rollbackTargets, env, rollbackTags,
tags)` - tag and previous tag swapped. -/

/-- One iteration of the rollback-selection loop. -/
def rollbackStep (previousTags : List (Str × Str))
    (acc : List (Str × Str) × List Str) (svc : Str) :
    List (Str × Str) × List Str :=
  match lookupKV previousTags svc with
  | some kv =>
    if kv.2 = [] then (acc.1, acc.2 ++ [svc])
    else (acc.1 ++ [(svc, kv.2)], acc.2)
  | none => (acc.1, acc.2 ++ [svc])

/-- The whole selection loop: `(rollbackTags, skipped services)`. -/
def rollbackSelect (previousTags : List (Str × Str))
    (rollbackServices : List Str) : List (Str × Str) × List Str :=
  rollbackServices.foldl (rollbackStep previousTags) ([], [])

/-- The map entry one service contributes, if any. -/
def rollbackEntry (previousTags : List (Str × Str)) (svc : Str) :
    Option (Str × Str) :=
  match lookupKV previousTags svc with
  | some kv => if kv.2 = [] then none else some (svc, kv.2)
  | none => none

/-- A Go map read `rollbackTags[svc]` over the selection's association
list (absent keys read as the empty string). -/
def rbTags (sel : List (Str × Str)) (svc : Str) : Str :=
  ((lookupKV sel svc).map (fun kv => kv.2)).getD []

theorem rollbackStep_eq (previousTags : List (Str × Str))
    (acc : List (Str × Str) × List Str) (svc : Str) :
    rollbackStep previousTags acc svc =
      match rollbackEntry previousTags svc with
      | some e => (acc.1 ++ [e], acc.2)
      | none => (acc.1, acc.2 ++ [svc]) := by
  unfold rollbackStep rollbackEntry
  cases hkv : lookupKV previousTags svc with
  | some kv =>
    by_cases hz : kv.2 = []
    · simp [hz]
    · simp [hz]
  | none => simp

theorem rollbackSelect_aux (previousTags : List (Str × Str)) :
    ∀ (services : List Str) (acc : List (Str × Str) × List Str),
      services.foldl (rollbackStep previousTags) acc =
        (acc.1 ++ services.filterMap (rollbackEntry previousTags),
          acc.2 ++ services.filter
            (fun svc => (rollbackEntry previousTags svc).isNone)) := by
  intro services
  induction services with
  | nil =>
    intro acc
    simp
  | cons svc rest ih =>
    intro acc
    rw [List.foldl_cons, ih, rollbackStep_eq]
    rw [List.filterMap_cons, List.filter_cons]
    cases hent : rollbackEntry previousTags svc with
    | some e => simp
    | none => simp

theorem rollbackSelect_spec (previousTags : List (Str × Str))
    (rollbackServices : List Str) :
    rollbackSelect previousTags rollbackServices =
      (rollbackServices.filterMap (rollbackEntry previousTags),
        rollbackServices.filter
          (fun svc => (rollbackEntry previousTags svc).isNone)) := by
  unfold rollbackSelect
  rw [rollbackSelect_aux]
  simp

theorem rollbackEntry_some (previousTags : List (Str × Str)) (svc : Str)
    (e : Str × Str) (h : rollbackEntry previousTags svc = some e) :
    e.1 = svc ∧ ∃ kv, lookupKV previousTags svc = some kv ∧ ¬kv.2 = [] ∧ e.2 = kv.2 := by
  unfold rollbackEntry at h
  split at h
  · rename_i kv hkv
    split at h
    · simp at h
    · rename_i hne
      injection h with h2
      rw [← h2]
      exact ⟨rfl, kv, hkv, hne, rfl⟩
  · simp at h

theorem rollbackEntry_none (previousTags : List (Str × Str)) (svc : Str)
    (h : rollbackEntry previousTags svc = none) :
    ∀ kv, lookupKV previousTags svc = some kv → kv.2 = [] := by
  intro kv hkv
  unfold rollbackEntry at h
  split at h
  · rename_i kv2 hkv2
    rw [hkv] at hkv2
    injection hkv2 with h3
    subst h3
    by_cases hz : kv.2 = []
    · exact hz
    · rw [if_neg hz] at h
      simp at h
  · rename_i hnone
    rw [hkv] at hnone
    simp at hnone

end Hoist

namespace Hoist

theorem rollbackTargets_mem (previousTags : List (Str × Str))
    (rollbackServices : List Str) (s : Str) :
    s ∈ kvKeys (rollbackSelect previousTags rollbackServices).1 ↔
      (s ∈ rollbackServices ∧
        ∃ kv, lookupKV previousTags s = some kv ∧ ¬kv.2 = []) := by
  rw [rollbackSelect_spec]
  constructor
  · intro hs
    rcases List.mem_map.mp hs with ⟨e, he, hfst⟩
    rcases List.mem_filterMap.mp he with ⟨svc, hsvc, hent⟩
    rcases rollbackEntry_some previousTags svc e hent with ⟨he1, kv, hkv, hne, _⟩
    rw [← hfst, he1]
    exact ⟨hsvc, kv, hkv, hne⟩
  · rintro ⟨hs, kv, hkv, hne⟩
    have hent : rollbackEntry previousTags s = some (s, kv.2) := by
      unfold rollbackEntry
      rw [hkv]
      show (if kv.2 = [] then none else some (s, kv.2)) = some (s, kv.2)
      rw [if_neg hne]
    exact List.mem_map.mpr ⟨(s, kv.2), List.mem_filterMap.mpr ⟨s, hs, hent⟩, rfl⟩

theorem rollbackSkipped_mem (previousTags : List (Str × Str))
    (rollbackServices : List Str) (s : Str) :
    s ∈ (rollbackSelect previousTags rollbackServices).2 ↔
      (s ∈ rollbackServices ∧
        ∀ kv, lookupKV previousTags s = some kv → kv.2 = []) := by
  rw [rollbackSelect_spec]
  constructor
  · intro hs
    have hs2 := List.mem_filter.mp hs
    refine ⟨hs2.1, ?_⟩
    have hnone : rollbackEntry previousTags s = none :=
      Option.isNone_iff_eq_none.mp hs2.2
    exact rollbackEntry_none previousTags s hnone
  · rintro ⟨hs, hall⟩
    have hnone : rollbackEntry previousTags s = none := by
      unfold rollbackEntry
      cases hkv : lookupKV previousTags s with
      | some kv =>
        have hz := hall kv hkv
        simp [hz]
      | none => simp
    refine List.mem_filter.mpr ⟨hs, ?_⟩
    show (rollbackEntry previousTags s).isNone = true
    rw [hnone]
    rfl

theorem rbTags_eq (previousTags : List (Str × Str))
    (rollbackServices : List Str) (svc : Str)
    (hs : svc ∈ kvKeys (rollbackSelect previousTags rollbackServices).1) :
    ∃ kv, lookupKV previousTags svc = some kv ∧ ¬kv.2 = [] ∧
      rbTags (rollbackSelect previousTags rollbackServices).1 svc = kv.2 := by
  have hsome : (lookupKV (rollbackSelect previousTags rollbackServices).1
      svc).isSome = true :=
    (lookupKV_isSome_keys _ svc).mpr hs
  rcases Option.isSome_iff_exists.mp hsome with ⟨e, he⟩
  have hfact := lookupKV_fact _ svc e he
  have hmem : e ∈ (rollbackSelect previousTags rollbackServices).1 := hfact.1
  rw [rollbackSelect_spec] at hmem
  rcases List.mem_filterMap.mp hmem with ⟨svc2, hsvc2, hent⟩
  rcases rollbackEntry_some previousTags svc2 e hent with ⟨he1, kv, hkv, hne, hval⟩
  have hsv : svc2 = svc := by rw [← he1, hfact.2]
  rw [hsv] at hkv
  refine ⟨kv, hkv, hne, ?_⟩
  unfold rbTags
  rw [he]
  show e.2 = kv.2
  exact hval

end Hoist

namespace Hoist

/-- C7 (confirmed): `deployAll` attempts the deploy call for every service
regardless of other services' failures - the results channel holds one
entry per service, each carrying that service's own outcome as its cause,
keyed by service name - and the returned failed list contains exactly the
services whose deploy call errored. -/
theorem deployAll_partial_failure (dep : Str → Str → Str → Option Str)
    (services : List Str) (tags prevTags : Str → Str) (s : Str) :
    ((deployAllRuns dep services tags prevTags).map (fun r => r.1) = services ∧
      ∀ r ∈ deployAllRuns dep services tags prevTags,
        r.2 = dep r.1 (tags r.1) (prevTags r.1)) ∧
      (s ∈ deployAllFailed dep services tags prevTags ↔
        (s ∈ services ∧ (dep s (tags s) (prevTags s)).isSome = true)) :=
  ⟨⟨deployAllRuns_fst dep services tags prevTags,
    deployAllRuns_causes dep services tags prevTags⟩,
    deployAllFailed_mem dep services tags prevTags s⟩

/-- C8 (confirmed): in the rollback pass of `deployAllWithUI`, the target
list holds exactly the selected services whose previous tag is present and
non-empty; a service with an empty or absent previous tag is reported as
skipped, is excluded from the target list and never appears in the
rollback's failed list; and every rollback deploy call swaps tag and
previous tag - the service is re-deployed to its previous tag, with the
just-deployed tag passed as the previous one. -/
theorem rollback_skip_and_swap (dep : Str → Str → Str → Option Str)
    (previousTags : List (Str × Str)) (tags : Str → Str)
    (rollbackServices : List Str) (s : Str) :
    ((s ∈ kvKeys (rollbackSelect previousTags rollbackServices).1 ↔
        (s ∈ rollbackServices ∧
          ∃ kv, lookupKV previousTags s = some kv ∧ ¬kv.2 = [])) ∧
      (s ∈ (rollbackSelect previousTags rollbackServices).2 ↔
        (s ∈ rollbackServices ∧
          ∀ kv, lookupKV previousTags s = some kv → kv.2 = []))) ∧
      (s ∈ (rollbackSelect previousTags rollbackServices).2 →
        ¬s ∈ kvKeys (rollbackSelect previousTags rollbackServices).1 ∧
        ¬s ∈ deployAllFailed dep
          (kvKeys (rollbackSelect previousTags rollbackServices).1)
          (rbTags (rollbackSelect previousTags rollbackServices).1) tags) ∧
      (∀ r ∈ deployAllRuns dep
          (kvKeys (rollbackSelect previousTags rollbackServices).1)
          (rbTags (rollbackSelect previousTags rollbackServices).1) tags,
        ∃ kv, lookupKV previousTags r.1 = some kv ∧ ¬kv.2 = [] ∧
          r.2 = dep r.1 kv.2 (tags r.1)) := by
  refine ⟨⟨rollbackTargets_mem previousTags rollbackServices s,
    rollbackSkipped_mem previousTags rollbackServices s⟩, ?_, ?_⟩
  · intro hs
    have hsk := (rollbackSkipped_mem previousTags rollbackServices s).mp hs
    constructor
    · intro ht
      rcases (rollbackTargets_mem previousTags rollbackServices s).mp ht with
        ⟨_, kv, hkv, hne⟩
      exact hne (hsk.2 kv hkv)
    · intro hf
      have h2 := (deployAllFailed_mem dep _ _ tags s).mp hf
      rcases (rollbackTargets_mem previousTags rollbackServices s).mp h2.1 with
        ⟨_, kv, hkv, hne⟩
      exact hne (hsk.2 kv hkv)
  · intro r hr
    rcases List.mem_map.mp hr with ⟨svc, hsvc, hre⟩
    rcases rbTags_eq previousTags rollbackServices svc hsvc with ⟨kv, hkv, hne, hval⟩
    refine ⟨kv, ?_, hne, ?_⟩
    · rw [← hre]
      exact hkv
    · rw [← hre]
      show dep svc (rbTags (rollbackSelect previousTags rollbackServices).1 svc)
          (tags svc) = dep svc kv.2 (tags svc)
      rw [hval]

end Hoist
